import Mathlib

/-!
# RZ/N1 DMA request multiplexer and device-tree module aliases

A shallow embedding of `drivers/dma/dw/dmamux.c` and `drivers/of/module.c`,
followed by the properties established about them.

Conventions of the embedding:

* C unsigned integers are natural numbers; a value stored into a `u32` object is
  reduced modulo `2 ^ 32`; `ssize_t` and `int` values are integers.
* Pointers returned through `ERR_PTR` are a separate constructor of the result.
* Calls to collaborators outside the two files (phandle lookup, hardware mux
  write, allocator) take their results from an environment record, and the calls
  that matter are appended to a chronological call record.
-/

/-! ## Part 1: `drivers/dma/dw/dmamux.c` -/

/-- Error number `EINVAL` of the kernel. -/
def EINVAL : Int := 22

/-- Error number `ENOMEM` of the kernel. -/
def ENOMEM : Int := 12

/-- Error number `ENODEV` of the kernel. -/
def ENODEV : Int := 19

/-- Source constant `RZN1_DMAMUX_LINES`. -/
def RZN1_DMAMUX_LINES : Nat := 64

/-- Width in bits of the C type `unsigned long` (an LP64 build). -/
def BITS_PER_LONG : Nat := 64

/-- Modelled from the spec: the kernel macro `BIT(nr)`, that is `1UL << nr`, whose
definition is not part of these sources ("a single-bit mask").  For `nr` below
the width of `unsigned long` it is `2 ^ nr`; a larger shift, undefined in C, is
taken to shift the bit out. -/
def BIT (nr : Nat) : Nat := 2 ^ nr % 2 ^ BITS_PER_LONG

/-- Conversion of an unsigned value to the C type `u32`. -/
def u32 (x : Nat) : Nat := x % 2 ^ 32

/-- The C expression `~x` on an `unsigned long`. -/
def not_ulong (x : Nat) : Nat := 2 ^ BITS_PER_LONG - 1 - x % 2 ^ BITS_PER_LONG

/-- The C expression `a % b` on unsigned operands; `none` is the trap of a zero
divisor. -/
def umod (a b : Nat) : Option Nat := if b = 0 then none else some (a % b)

/-- Source `struct rzn1_dmamux_data`, without the router handle and the mutex.
The field `used_chans` is a `u32`. -/
structure rzn1_dmamux_data where
  dmac_requests : Nat
  dmamux_requests : Nat
  used_chans : Nat
deriving DecidableEq, Repr

/-- Source `struct rzn1_dmamux_map`. -/
structure rzn1_dmamux_map where
  req_idx : Nat
deriving DecidableEq, Repr

/-- The kernel's `struct of_phandle_args`: target node (nodes are named by
numbers, `none` is the null pointer), argument count and argument cells. -/
structure of_phandle_args where
  np : Option Nat
  args_count : Int
  args : List Nat
deriving DecidableEq, Repr

/-- Calls made to collaborators outside the file. -/
inductive ext_call where
  | of_parse_phandle (index : Nat)
  | r9a06g032_sysctrl_set_dmamux (mask val : Nat)
deriving DecidableEq, Repr

/-- What the collaborators answer: whether `kzalloc` hands out a record, the node
behind each index of the mux node's "dma-masters" property, and the return code
of the hardware mux write. -/
structure mux_env where
  kzalloc : Bool
  dma_masters : Nat → Option Nat
  set_dmamux : Nat → Nat → Int

/-- The mux device together with the record of collaborator calls so far. -/
structure mux_state where
  dmamux : rzn1_dmamux_data
  calls : List ext_call
deriving DecidableEq, Repr

/-- Value returned by `rzn1_dmamux_route_allocate`: `ERR_PTR(e)` or the record. -/
inductive alloc_ret where
  | ERR_PTR (e : Int)
  | map (m : rzn1_dmamux_map)
deriving DecidableEq, Repr

/-- Everything `rzn1_dmamux_route_allocate` leaves behind: its return value, the
request specifier as rewritten in place, and the device state. -/
structure alloc_result where
  ret : alloc_ret
  dma_spec : of_phandle_args
  st : mux_state
deriving DecidableEq, Repr

/-- Cell `i` of the argument array of a request specifier. -/
def of_phandle_args.arg (a : of_phandle_args) (i : Nat) : Nat := a.args.getD i 0

/-- Source `rzn1_dmamux_free`: `dmamux->used_chans &= ~BIT(map->req_idx)`. -/
def rzn1_dmamux_free (s : mux_state) (map : rzn1_dmamux_map) : mux_state :=
  { s with dmamux :=
      { s.dmamux with
        used_chans := u32 (s.dmamux.used_chans &&& not_ulong (BIT map.req_idx)) } }

/-- Source `rzn1_dmamux_route_allocate`.  The result is `none` when the modulo
is evaluated with a zero divisor. -/
def rzn1_dmamux_route_allocate (env : mux_env) (s : mux_state)
    (dma_spec : of_phandle_args) : Option alloc_result :=
  if env.kzalloc = false then
    some ⟨.ERR_PTR (-ENOMEM), dma_spec, s⟩
  else if dma_spec.args_count ≠ 6 then
    some ⟨.ERR_PTR (-EINVAL), dma_spec, s⟩
  else
    let chan := dma_spec.arg 0
    let map : rzn1_dmamux_map := { req_idx := dma_spec.arg 4 }
    let val := dma_spec.arg 5
    let dma_spec := { dma_spec with args_count := dma_spec.args_count - 2 }
    if chan ≥ s.dmamux.dmac_requests then
      some ⟨.ERR_PTR (-EINVAL), dma_spec, s⟩
    else if map.req_idx ≥ s.dmamux.dmamux_requests then
      some ⟨.ERR_PTR (-EINVAL), dma_spec, s⟩
    else
      match umod map.req_idx s.dmamux.dmac_requests with
      | none => none
      | some r =>
        if r ≠ chan then
          some ⟨.ERR_PTR (-EINVAL), dma_spec, s⟩
        else
          let master := if map.req_idx ≥ s.dmamux.dmac_requests then 1 else 0
          let dma_spec := { dma_spec with np := env.dma_masters master }
          let s := { s with calls := s.calls ++ [.of_parse_phandle master] }
          if dma_spec.np = none then
            some ⟨.ERR_PTR (-EINVAL), dma_spec, s⟩
          else
            let mask := u32 (BIT map.req_idx)
            let hwval := if val ≠ 0 then mask else 0
            let s : mux_state :=
              { dmamux := { s.dmamux with used_chans := u32 (s.dmamux.used_chans ||| mask) },
                calls := s.calls ++ [.r9a06g032_sysctrl_set_dmamux mask hwval] }
            let ret := env.set_dmamux mask hwval
            if ret ≠ 0 then
              some ⟨.ERR_PTR ret, dma_spec, rzn1_dmamux_free s map⟩
            else
              some ⟨.map map, dma_spec, s⟩

/-- Bit `i` of a bitmask. -/
def bit_set (x i : Nat) : Prop := x.testBit i = true

instance bit_set_dec (x i : Nat) : Decidable (bit_set x i) := by
  unfold bit_set; infer_instance

/-! ### Sequences of calls on one mux device -/

/-- A call made by the DMA framework on the router: a route allocation, or the
release of the `k`-th mapping that is still held. -/
inductive mux_op where
  | allocate (env : mux_env) (dma_spec : of_phandle_args)
  | free (k : Nat)

/-- The device state together with the mappings handed out by successful
allocations and not released yet, oldest first. -/
structure mux_sys where
  st : mux_state
  live : List rzn1_dmamux_map

/-- State of a freshly probed device: `devm_kzalloc` zeroes the bitmask. -/
def mux_init (dmac_requests dmamux_requests : Nat) : mux_sys :=
  { st := { dmamux := { dmac_requests := dmac_requests,
                        dmamux_requests := dmamux_requests,
                        used_chans := 0 },
            calls := [] },
    live := [] }

/-- Effect of one framework call.  A release names a mapping that is held, so
each mapping is released at most once. -/
def mux_step (w : mux_sys) : mux_op → mux_sys
  | .allocate env dma_spec =>
    match rzn1_dmamux_route_allocate env w.st dma_spec with
    | none => w
    | some r =>
      match r.ret with
      | .map m => { st := r.st, live := w.live ++ [m] }
      | .ERR_PTR _ => { st := r.st, live := w.live }
  | .free k =>
    match w.live[k]? with
    | none => w
    | some m => { st := rzn1_dmamux_free w.st m, live := w.live.eraseIdx k }

/-- Effect of a sequence of framework calls. -/
def mux_run (w : mux_sys) (ops : List mux_op) : mux_sys := ops.foldl mux_step w

/-- Number of held mappings whose request line is `i`. -/
def holders (w : mux_sys) (i : Nat) : Nat := (w.live.map (·.req_idx)).count i

/-- An allocation that names a request line no held mapping has; releases are
unrestricted. -/
def mux_op_fresh (w : mux_sys) : mux_op → Prop
  | .allocate _ dma_spec => dma_spec.arg 4 ∉ w.live.map (·.req_idx)
  | .free _ => True

/-- A sequence of calls in which no allocation names a request line that a held
mapping already has. -/
def mux_run_fresh : mux_sys → List mux_op → Prop
  | _, [] => True
  | w, op :: ops => mux_op_fresh w op ∧ mux_run_fresh (mux_step w op) ops

/-! ### Concrete requests used as examples -/

/-- An environment in which the allocator hands out a record, only index 1 of
"dma-masters" resolves (to node 7), and the hardware write succeeds. -/
def env_master1 : mux_env :=
  { kzalloc := true, dma_masters := fun i => if i = 1 then some 7 else none,
    set_dmamux := fun _ _ => 0 }

/-- An environment in which everything resolves and the hardware write
succeeds. -/
def env_ok : mux_env :=
  { kzalloc := true, dma_masters := fun _ => some 7, set_dmamux := fun _ _ => 0 }

/-- An environment in which everything resolves and the hardware write fails
with `-5`. -/
def env_hw_fails : mux_env :=
  { kzalloc := true, dma_masters := fun _ => some 7, set_dmamux := fun _ _ => -5 }

/-- A device with 8 controller lines and 64 mux lines and the given bitmask. -/
def dev_8_64 (used : Nat) : mux_state :=
  { dmamux := { dmac_requests := 8, dmamux_requests := 64, used_chans := used }, calls := [] }

/-- A six-cell request for controller line `chan` and mux line `req_idx`. -/
def request (chan req_idx val : Nat) : of_phandle_args :=
  { np := none, args_count := 6, args := [chan, 0, 0, 0, req_idx, val] }

/-- Invariant of the mux device under disciplined use: at most 32 mux lines, the
bitmask is a `u32`, no two held mappings name the same line, and the set bits are
the lines of the held mappings. -/
def mux_inv (w : mux_sys) : Prop :=
  w.st.dmamux.dmamux_requests ≤ 32 ∧
  w.st.dmamux.used_chans < 2 ^ 32 ∧
  (w.live.map (·.req_idx)).Nodup ∧
  ∀ i, w.st.dmamux.used_chans.testBit i = true ↔ i ∈ w.live.map (·.req_idx)

instance mux_op_fresh_dec (w : mux_sys) : (op : mux_op) → Decidable (mux_op_fresh w op)
  | .allocate _ dma_spec =>
    show Decidable (dma_spec.arg 4 ∉ w.live.map fun m => m.req_idx) from inferInstance
  | .free _ => isTrue trivial

instance mux_run_fresh_dec : (w : mux_sys) → (ops : List mux_op) → Decidable (mux_run_fresh w ops)
  | _, [] => isTrue trivial
  | w, op :: ops =>
    have := mux_run_fresh_dec (mux_step w op) ops
    inferInstanceAs (Decidable (mux_op_fresh w op ∧ mux_run_fresh (mux_step w op) ops))

/-! ## Part 2: `drivers/of/module.c` -/

/-- The string terminator. -/
def NUL : Char := Char.ofNat 0

/-- A device-tree node as the helpers of `module.c` see it: the name printed by
`%pOFn`, the result of `of_node_get_device_type` (`none` is the null pointer),
the strings of the "compatible" property in order, the full name printed by
`%pOF`, and the address of the node, which stands for its identity in pointer
comparisons.  A C string is the list of its characters before the terminator. -/
structure device_node where
  name : List Char
  device_type : Option (List Char)
  compatible : List (List Char)
  full_name : List Char := []
  addr : Nat := 0
deriving DecidableEq, Repr

/-- The strings of a node are C strings: none contains the terminator. -/
def device_node.wf (np : device_node) : Prop :=
  NUL ∉ np.name ∧ (∀ t, np.device_type = some t → NUL ∉ t) ∧ ∀ c ∈ np.compatible, NUL ∉ c

/-- Memory behind the `str` argument, `bytes[i]` being `str[i]` (empty for a null
pointer), with the offsets stored to, in order. -/
structure cbuf where
  bytes : List Char
  stores : List Nat
deriving DecidableEq, Repr

/-- The store `str[off] = c`. -/
def cbuf.store (m : cbuf) (off : Nat) (c : Char) : cbuf :=
  { bytes := m.bytes.set off c, stores := m.stores ++ [off] }

/-- Stores of consecutive characters starting at `str[off]`. -/
def cbuf.store_all (m : cbuf) (off : Nat) : List Char → cbuf
  | [] => m
  | c :: cs => (m.store off c).store_all (off + 1) cs

/-- Modelled from the spec: `snprintf` of the kernel library, which is not among
these sources, applied to an already formatted text: the bounded formatter of the
"compute required size, then format into caller buffer" pattern.  It returns the
length of the complete text; with `size = 0` it stores nothing, otherwise it
stores the first `size - 1` characters of the text and a terminator. -/
def snprintf (m : cbuf) (str : Nat) (size : Nat) (text : List Char) : cbuf × Nat :=
  (if size = 0 then m else m.store_all str (text.take (size - 1) ++ [NUL]), text.length)

/-- Modelled from the spec: the text of the format `"of:N%pOFn%c%s"` with the
arguments `np`, `'T'` and the device type; the conversions belong to the kernel
library, which is not among these sources: "`of:N` + node name + `T` + (device
type, or empty)". -/
def fmt_name_type (np : device_node) : List Char :=
  "of:N".toList ++ np.name ++ 'T' :: np.device_type.getD []

/-- Modelled from the spec: the scan of `strchr` (kernel library, not among these
sources) over the bytes from position `p` on. -/
def strchr_scan : List Char → Nat → Char → Option Nat
  | [], _, _ => none
  | b :: bs, p, ch =>
    if b = ch then some p else if b = NUL then none else strchr_scan bs (p + 1) ch

/-- Modelled from the spec: `strchr(str + s, ch)` of the kernel library, which is
not among these sources, used to find "every space character": the offset of the
first `ch` before the terminator, `none` for the null pointer.  Bytes past the
modelled memory end the scan. -/
def strchr (bytes : List Char) (s : Nat) (ch : Char) : Option Nat :=
  strchr_scan (bytes.drop s) s ch

/-- The loop `for (c = str; c; ) { c = strchr(c, ' '); if (c) *c++ = '_'; }` of
the source; `fuel` bounds the number of passes. -/
def replace_spaces : Nat → cbuf → Option Nat → cbuf
  | 0, m, _ => m
  | _ + 1, m, none => m
  | fuel + 1, m, some c =>
    match strchr m.bytes c ' ' with
    | none => replace_spaces fuel m none
    | some p => replace_spaces fuel (m.store p '_') (some (p + 1))

/-- Local variables of `of_modalias` while it runs: the memory behind the `str`
argument, the offset of the moving `str` pointer from that argument, `len`,
`tsize`, and the compatible strings passed over by `continue`. -/
structure modalias_state where
  mem : cbuf
  str : Nat
  len : Int
  tsize : Int
  skipped : List (List Char)
deriving DecidableEq, Repr

/-- Body of the `of_property_for_each_string` loop of `of_modalias`. -/
def of_modalias_compat (st : modalias_state) (compat : List Char) : modalias_state :=
  let csize : Int := compat.length + 1
  let tsize := st.tsize + csize
  if csize > st.len then
    { st with tsize := tsize, skipped := st.skipped ++ [compat] }
  else
    let r := snprintf st.mem st.str st.len.toNat ('C' :: compat)
    let mem := replace_spaces (r.1.bytes.length + 1) r.1 (some st.str)
    { st with mem := mem, tsize := tsize, len := st.len - r.2, str := st.str + r.2 }

/-- Source `of_modalias(np, str, len)`, for `len ≥ 0`.  The argument `str` is the
memory behind the pointer, `none` for a null pointer; the value returned by the C
function is the field `tsize` of the result. -/
def of_modalias (np : device_node) (str : Option (List Char)) (len : Int) : modalias_state :=
  let r := snprintf { bytes := str.getD [], stores := [] } 0 len.toNat (fmt_name_type np)
  np.compatible.foldl of_modalias_compat
    { mem := r.1, str := if str.isSome then r.2 else 0, len := len - r.2, tsize := r.2,
      skipped := [] }

/-- The C string held at the start of a buffer. -/
def cstring (bytes : List Char) : List Char := bytes.takeWhile (· ≠ NUL)

/-- The substitution the spec describes: a space becomes an underscore. -/
def underscore (ch : Char) : Char := if ch = ' ' then '_' else ch

/-- The part of the alias that the spec describes for the compatible strings:
`C` + the string with spaces replaced, for each string in order. -/
def compat_text (cs : List (List Char)) : List Char :=
  (cs.map fun c => 'C' :: c.map underscore).flatten

/-- The size the spec describes for the compatible strings: `length c + 1` for
each of them. -/
def compat_size (cs : List (List Char)) : Nat := (cs.map fun c => c.length + 1).sum

/-- The alias as the spec describes it: `of:N` + name + `T` + type, then `C` +
the string with spaces replaced, for each compatible string in order. -/
def alias_text (np : device_node) : List Char :=
  fmt_name_type np ++ compat_text np.compatible

/-- The size the spec describes: the length of the name and type part plus
`length c + 1` for each compatible string. -/
def alias_size (np : device_node) : Nat :=
  (fmt_name_type np).length + compat_size np.compatible

/-- Number of positions at which a string and its substituted form differ. -/
def substituted (c : List Char) : Nat :=
  ((c.zip (c.map underscore)).filter fun p => decide (p.1 ≠ p.2)).length

/-- The node of the spec's example: name `uart@1000`, no device type, compatible
strings `vendor,uart-a` and `vendor,uart b`. -/
def node_uart : device_node :=
  { name := "uart@1000".toList, device_type := none,
    compatible := ["vendor,uart-a".toList, "vendor,uart b".toList] }

/-! ### The callers of `of_modalias` -/

/-- The line feed character. -/
def LF : Char := Char.ofNat 10

/-- State of `of_modalias` before its loop: after the name and type part has
been formatted. -/
def of_modalias_start (np : device_node) (str : Option (List Char)) (len : Int) :
    modalias_state :=
  let r := snprintf { bytes := str.getD [], stores := [] } 0 len.toNat (fmt_name_type np)
  { mem := r.1, str := if str.isSome then r.2 else 0, len := len - r.2, tsize := r.2,
    skipped := [] }

/-- Source `of_printable_modalias(np, str, len)`, for `len ≥ 2`: the value returned
and the memory behind `str` afterwards.  A null `np` is `none`. -/
def of_printable_modalias (np : Option device_node) (str : Option (List Char)) (len : Int) :
    Int × cbuf :=
  match np with
  | none => (-ENODEV, { bytes := str.getD [], stores := [] })
  | some np =>
    let st := of_modalias np str (len - 2)
    let sl := st.tsize
    if sl < 0 then (sl, st.mem)
    else if sl > len - 2 then (-ENOMEM, st.mem)
    else
      let mem := st.mem.store sl.toNat LF
      let mem := mem.store (sl.toNat + 1) NUL
      (sl + 1, mem)

/-- Calls `of_request_module` makes to collaborators outside the file. -/
inductive module_call where
  | kmalloc (size : Nat)
  | request_module (name : List Char)
  | kfree
deriving DecidableEq, Repr

/-- What the collaborators of `of_request_module` answer: the memory `kmalloc`
hands out for a size (`none` is the null pointer) and the return code of
`request_module` for a module name. -/
structure module_env where
  kmalloc : Nat → Option (List Char)
  request_module : List Char → Int

/-- Source `of_request_module(np)`: the value returned and the collaborator calls
made, in order. -/
def of_request_module (env : module_env) (np : Option device_node) : Int × List module_call :=
  match np with
  | none => (-ENODEV, [])
  | some np =>
    let size := (of_modalias np none 0).tsize
    if size < 0 then (size, [])
    else
      let size := size + 1
      match env.kmalloc size.toNat with
      | none => (-ENOMEM, [.kmalloc size.toNat])
      | some str =>
        let st := of_modalias np (some str) size
        let mem := st.mem.store (size.toNat - 1) NUL
        (env.request_module (cstring mem.bytes),
          [.kmalloc size.toNat, .request_module (cstring mem.bytes), .kfree])

/-- Modelled from the spec: the kernel's `struct kobj_uevent_env`, declared outside
these sources, "fixed-capacity buffer accepting `KEY=VALUE` entries": the bytes of
`env->buf` (all `sizeof(env->buf)` of them) and `env->buflen`, the number of
bytes in use. -/
structure kobj_uevent_env where
  buf : List Char
  buflen : Nat
deriving DecidableEq, Repr

/-- The used part of the environment buffer: the entries, each with its
terminator. -/
def kobj_uevent_env.text (env : kobj_uevent_env) : List Char := env.buf.take env.buflen

/-- Modelled from the spec: `add_uevent_var` of the kernel, which is not among
these sources, applied to an already formatted entry: "fixed-capacity buffer
accepting `KEY=VALUE` entries; overflow is a hard error".  An entry that fits
with its terminator in the remaining space is stored after the bytes in use and
the call returns 0; otherwise the call returns `-ENOMEM` and the entries are as
before. -/
def add_uevent_var (env : kobj_uevent_env) (entry : List Char) : kobj_uevent_env × Int :=
  if env.buflen + entry.length + 1 ≤ env.buf.length then
    ({ buf := env.buf.take env.buflen ++ entry
              ++ NUL :: env.buf.drop (env.buflen + entry.length + 1),
       buflen := env.buflen + entry.length + 1 }, 0)
  else
    (env, -ENOMEM)

/-- Modelled from the spec: the conversion `%d` of the kernel's `vsnprintf`, which
is not among these sources, for a count: its decimal digits. -/
def fmt_d (n : Nat) : List Char := (Nat.repr n).toList

/-- The kernel's `struct alias_prop`, as far as `of_uevent` reads it: the address
of the node the alias stands for and the alias string (field `alias` of the
source). -/
structure alias_prop where
  np : Nat
  alias_name : List Char
deriving DecidableEq, Repr

/-- Body of the loop of `of_uevent` over the compatible strings; the state is the
environment and the counter `seen`. -/
def of_uevent_compat (p : kobj_uevent_env × Nat) (compat : List Char) :
    kobj_uevent_env × Nat :=
  ((add_uevent_var p.1 ("OF_COMPATIBLE_".toList ++ fmt_d p.2 ++ '=' :: compat)).1, p.2 + 1)

/-- Body of the loop of `of_uevent` over `aliases_lookup`. -/
def of_uevent_alias (np : device_node) (p : kobj_uevent_env × Nat) (app : alias_prop) :
    kobj_uevent_env × Nat :=
  if np.addr = app.np then
    ((add_uevent_var p.1 ("OF_ALIAS_".toList ++ fmt_d p.2 ++ '=' :: app.alias_name)).1, p.2 + 1)
  else p

/-- Source `of_uevent(np, env)`, with the global list `aliases_lookup` as an
argument: the value returned and the environment afterwards.  The value returned
by each `add_uevent_var` is dropped, as in the source. -/
def of_uevent (aliases_lookup : List alias_prop) (np : Option device_node)
    (env : kobj_uevent_env) : Int × kobj_uevent_env :=
  match np with
  | none => (-ENODEV, env)
  | some np =>
    let env := (add_uevent_var env ("OF_NAME=".toList ++ np.name)).1
    let env := (add_uevent_var env ("OF_FULLNAME=".toList ++ np.full_name)).1
    let env :=
      match np.device_type with
      | some type => (add_uevent_var env ("OF_TYPE=".toList ++ type)).1
      | none => env
    let r := np.compatible.foldl of_uevent_compat (env, 0)
    let env := (add_uevent_var r.1 ("OF_COMPATIBLE_N=".toList ++ fmt_d r.2)).1
    let r := aliases_lookup.foldl (of_uevent_alias np) (env, 0)
    (0, r.1)

/-- Source `of_uevent_modalias(np, env)`: the value returned and the environment
afterwards.  The pointer `&env->buf[env->buflen-1]` is the memory of the buffer
from that offset on. -/
def of_uevent_modalias (np : Option device_node) (env : kobj_uevent_env) :
    Int × kobj_uevent_env :=
  match np with
  | none => (-ENODEV, env)
  | some np =>
    let r := add_uevent_var env "MODALIAS=".toList
    if r.2 ≠ 0 then (-ENOMEM, r.1)
    else
      let env := r.1
      let room : Int := (env.buf.length : Int) - env.buflen
      let st := of_modalias np (some (env.buf.drop (env.buflen - 1))) room
      let env := { env with buf := env.buf.take (env.buflen - 1) ++ st.mem.bytes }
      let sl := st.tsize
      if sl ≥ room then (-ENOMEM, env)
      else (0, { env with buflen := env.buflen + sl.toNat })

/-- The entries the spec describes for `of_uevent`, in order: `OF_NAME`,
`OF_FULLNAME`, `OF_TYPE` when the device type is present, one
`OF_COMPATIBLE_<i>` per compatible string, `OF_COMPATIBLE_N`, and one
`OF_ALIAS_<j>` per alias-lookup entry whose target is the node. -/
def uevent_entries (aliases_lookup : List alias_prop) (np : device_node) : List (List Char) :=
  [ "OF_NAME=".toList ++ np.name, "OF_FULLNAME=".toList ++ np.full_name ]
  ++ (match np.device_type with
      | some type => [ "OF_TYPE=".toList ++ type ]
      | none => [])
  ++ (np.compatible.enum.map fun ic =>
        "OF_COMPATIBLE_".toList ++ fmt_d ic.1 ++ '=' :: ic.2)
  ++ [ "OF_COMPATIBLE_N=".toList ++ fmt_d np.compatible.length ]
  ++ ((aliases_lookup.filter fun app => decide (np.addr = app.np)).enum.map fun ja =>
        "OF_ALIAS_".toList ++ fmt_d ja.1 ++ '=' :: ja.2.alias_name)

/-- The bytes a list of entries takes in the environment buffer: each entry
followed by its terminator. -/
def entries_text (entries : List (List Char)) : List Char :=
  (entries.map fun e => e ++ [NUL]).flatten

/-- A node named `n` with the compatible strings `vendor,long` and `ab`. -/
def node_two : device_node :=
  { name := "n".toList, device_type := none,
    compatible := ["vendor,long".toList, "ab".toList] }

/-- The node of the spec's example with a device type, a full name and an
address. -/
def node_serial : device_node :=
  { name := "uart@1000".toList, device_type := some "serial".toList,
    compatible := ["vendor,uart-a".toList, "vendor,uart b".toList],
    full_name := "/soc/uart@1000".toList, addr := 4096 }

/-- An empty environment buffer of the given capacity. -/
def env_empty (capacity : Nat) : kobj_uevent_env :=
  { buf := List.replicate capacity NUL, buflen := 0 }

/-- The outcome of the spec's example of a route allocation. -/
def alloc_example : alloc_result :=
  { ret := .map { req_idx := 11 },
    dma_spec := { np := some 7, args_count := 4, args := [3, 0, 0, 0, 11, 1] },
    st := { dmamux := { dmac_requests := 8, dmamux_requests := 64, used_chans := 2048 },
            calls := [.of_parse_phandle 1, .r9a06g032_sysctrl_set_dmamux 2048 2048] } }

/-- The record of stores is complete: a byte whose offset is not in the record
is as it was at the start. -/
def untouched (b0 : List Char) (m : cbuf) : Prop :=
  ∀ i : Nat, i ∉ m.stores → m.bytes[i]? = b0[i]?

/-- The environment after a list of formatted entries has been offered to
`add_uevent_var` one after the other, the values returned being dropped. -/
def add_entries (env : kobj_uevent_env) (entries : List (List Char)) : kobj_uevent_env :=
  entries.foldl (fun e x => (add_uevent_var e x).1) env

/-- An environment buffer of 2048 bytes of which 2040 are in use. -/
def env_nearly_full : kobj_uevent_env :=
  { buf := List.replicate 2048 'x', buflen := 2040 }

/-! # Theorems -/

/-! ## Properties of the mux allocator -/

theorem testBit_u32 (x i : Nat) : (u32 x).testBit i = (decide (i < 32) && x.testBit i) := by
  unfold u32
  exact Nat.testBit_mod_two_pow x 32 i

theorem testBit_BIT (r i : Nat) : (BIT r).testBit i = (decide (i < 64) && decide (r = i)) := by
  unfold BIT BITS_PER_LONG
  rw [Nat.testBit_mod_two_pow, Nat.testBit_two_pow]

theorem testBit_not_ulong (x i : Nat) :
    (not_ulong x).testBit i = (decide (i < 64) && !x.testBit i) := by
  unfold not_ulong BITS_PER_LONG
  have h : x % 2 ^ 64 < 2 ^ 64 := Nat.mod_lt _ (by norm_num)
  have e : 2 ^ 64 - 1 - x % 2 ^ 64 = 2 ^ 64 - (x % 2 ^ 64 + 1) := by omega
  rw [e, Nat.testBit_two_pow_sub_succ h, Nat.testBit_mod_two_pow]
  by_cases hi : i < 64 <;> simp [hi]

theorem lt_32_of_testBit {x i : Nat} (hx : x < 2 ^ 32) (h : x.testBit i = true) : i < 32 := by
  by_contra hge
  have hle : 2 ^ 32 ≤ 2 ^ i := Nat.pow_le_pow_right (by norm_num) (by omega)
  have := Nat.testBit_lt_two_pow (Nat.lt_of_lt_of_le hx hle)
  simp [h] at this

theorem u32_lt (x : Nat) : u32 x < 2 ^ 32 := Nat.mod_lt _ (by norm_num)

/-- Bits of the bitmask after `rzn1_dmamux_free`. -/
theorem free_testBit (s : mux_state) (m : rzn1_dmamux_map) (i : Nat)
    (hu : s.dmamux.used_chans < 2 ^ 32) :
    (rzn1_dmamux_free s m).dmamux.used_chans.testBit i
      = (s.dmamux.used_chans.testBit i && !decide (m.req_idx = i)) := by
  simp only [rzn1_dmamux_free, testBit_u32, Nat.testBit_and, testBit_not_ulong, testBit_BIT]
  cases hb : s.dmamux.used_chans.testBit i
  · simp
  · have h32 := lt_32_of_testBit hu hb
    have h64 : i < 64 := by omega
    simp [h32, h64]

/-- The value a `u32` receives from `1UL << r` does not depend on the width of
`unsigned long`, as long as that width is at least 32. -/
theorem u32_shift_any_long (w r : Nat) (hw : 32 ≤ w) : u32 (2 ^ r % 2 ^ w) = u32 (BIT r) := by
  unfold u32 BIT BITS_PER_LONG
  rw [Nat.mod_mod_of_dvd _ (Nat.pow_dvd_pow 2 hw),
    Nat.mod_mod_of_dvd _ (Nat.pow_dvd_pow 2 (by norm_num : 32 ≤ 64))]

/-- The value a `u32` keeps after `&= ~(1UL << r)` does not depend
on the width of `unsigned long` either. -/
theorem u32_clear_any_long (w x r : Nat) (hw : 32 ≤ w) :
    u32 (x &&& (2 ^ w - 1 - 2 ^ r % 2 ^ w)) = u32 (x &&& not_ulong (BIT r)) := by
  apply Nat.eq_of_testBit_eq
  intro i
  have hlt : 2 ^ r % 2 ^ w < 2 ^ w := Nat.mod_lt _ (Nat.pos_pow_of_pos w (by norm_num))
  have e : 2 ^ w - 1 - 2 ^ r % 2 ^ w = 2 ^ w - (2 ^ r % 2 ^ w + 1) := by omega
  rw [testBit_u32, testBit_u32, Nat.testBit_and, Nat.testBit_and, testBit_not_ulong,
    testBit_BIT, e, Nat.testBit_two_pow_sub_succ hlt, Nat.testBit_mod_two_pow,
    Nat.testBit_two_pow]
  by_cases hi : i < 32
  · have hiw : i < w := by omega
    have hi64 : i < 64 := by omega
    simp [hi, hiw, hi64]
  · simp [hi]

/-- Bits of the bitmask after the bit of line `r` is set and then the mapping of
line `r` is freed. -/
theorem free_after_set_testBit (dmac dmamux used : Nat) (calls : List ext_call) (r i : Nat)
    (hu : used < 2 ^ 32) :
    (rzn1_dmamux_free
        { dmamux := { dmac_requests := dmac, dmamux_requests := dmamux,
                      used_chans := u32 (used ||| u32 (BIT r)) },
          calls := calls }
        { req_idx := r }).dmamux.used_chans.testBit i
      = (used.testBit i && !decide (r = i)) := by
  rw [free_testBit _ _ _ (u32_lt _)]
  simp only [testBit_u32, Nat.testBit_or, testBit_BIT]
  by_cases hi : r = i
  · simp [hi]
  · cases hb : used.testBit i
    · simp [hi]
    · simp [hi, lt_32_of_testBit hu hb]

/-- The outcome of `rzn1_dmamux_route_allocate` on a request that passes every
check, for whatever the hardware write returns. -/
theorem route_allocate_checked (env : mux_env) (s : mux_state) (dma_spec : of_phandle_args)
    (node : Nat)
    (hk : env.kzalloc = true)
    (hcount : dma_spec.args_count = 6)
    (hchan : dma_spec.arg 0 < s.dmamux.dmac_requests)
    (hreq : dma_spec.arg 4 < s.dmamux.dmamux_requests)
    (hmod : dma_spec.arg 4 % s.dmamux.dmac_requests = dma_spec.arg 0)
    (hnp : env.dma_masters (if dma_spec.arg 4 < s.dmamux.dmac_requests then 0 else 1)
      = some node) :
    rzn1_dmamux_route_allocate env s dma_spec =
      let mask := u32 (BIT (dma_spec.arg 4))
      let hwval := if dma_spec.arg 5 ≠ 0 then mask else 0
      let s1 : mux_state :=
        { dmamux := { s.dmamux with used_chans := u32 (s.dmamux.used_chans ||| mask) },
          calls := s.calls ++
            [.of_parse_phandle (if dma_spec.arg 4 < s.dmamux.dmac_requests then 0 else 1),
             .r9a06g032_sysctrl_set_dmamux mask hwval] }
      let spec1 : of_phandle_args := { np := some node, args_count := 4, args := dma_spec.args }
      if env.set_dmamux mask hwval ≠ 0 then
        some ⟨.ERR_PTR (env.set_dmamux mask hwval), spec1,
          rzn1_dmamux_free s1 { req_idx := dma_spec.arg 4 }⟩
      else
        some ⟨.map { req_idx := dma_spec.arg 4 }, spec1, s1⟩ := by
  have hpos : s.dmamux.dmac_requests ≠ 0 := by omega
  have hm : (if dma_spec.arg 4 ≥ s.dmamux.dmac_requests then 1 else 0)
      = (if dma_spec.arg 4 < s.dmamux.dmac_requests then 0 else 1) := by
    by_cases h : dma_spec.arg 4 < s.dmamux.dmac_requests
    · simp [h]
    · simp [h, Nat.le_of_not_lt h]
  simp only [rzn1_dmamux_route_allocate, hk, hcount, umod, hpos, hmod, hm, hnp]
  simp [Nat.not_le.mpr hchan, Nat.not_le.mpr hreq]

/-- A request that fails a check: when the argument count is not six, or `chan ≥ dmac_requests`, or
`req_idx ≥ dmamux_requests`, or `req_idx % dmac_requests ≠ chan`,
`rzn1_dmamux_route_allocate` (the record allocation having succeeded) returns
`ERR_PTR(-EINVAL)` and leaves the device state as it was: same bitmask, no call
of the hardware mux write (no call of a collaborator at all). -/
theorem route_allocate_rejects (env : mux_env) (s : mux_state)
    (dma_spec : of_phandle_args)
    (hk : env.kzalloc = true)
    (hbad : dma_spec.args_count ≠ 6 ∨ dma_spec.arg 0 ≥ s.dmamux.dmac_requests ∨
      dma_spec.arg 4 ≥ s.dmamux.dmamux_requests ∨
      dma_spec.arg 4 % s.dmamux.dmac_requests ≠ dma_spec.arg 0) :
    ∃ r, rzn1_dmamux_route_allocate env s dma_spec = some r ∧
      r.ret = .ERR_PTR (-EINVAL) ∧
      r.st.dmamux.used_chans = s.dmamux.used_chans ∧
      r.st.calls = s.calls ∧
      r.st = s := by
  by_cases hcount : dma_spec.args_count = 6
  · by_cases hchan : dma_spec.arg 0 ≥ s.dmamux.dmac_requests
    · exact ⟨⟨.ERR_PTR (-EINVAL), { dma_spec with args_count := 4 }, s⟩,
        by simp [rzn1_dmamux_route_allocate, hk, hcount, hchan], rfl, rfl, rfl, rfl⟩
    · by_cases hreq : dma_spec.arg 4 ≥ s.dmamux.dmamux_requests
      · exact ⟨⟨.ERR_PTR (-EINVAL), { dma_spec with args_count := 4 }, s⟩,
          by simp [rzn1_dmamux_route_allocate, hk, hcount, hchan, hreq], rfl, rfl, rfl, rfl⟩
      · have hmod : dma_spec.arg 4 % s.dmamux.dmac_requests ≠ dma_spec.arg 0 := by
          rcases hbad with h | h | h | h
          · exact absurd hcount h
          · exact absurd h hchan
          · exact absurd h hreq
          · exact h
        have hpos : s.dmamux.dmac_requests ≠ 0 := by omega
        exact ⟨⟨.ERR_PTR (-EINVAL), { dma_spec with args_count := 4 }, s⟩,
          by simp [rzn1_dmamux_route_allocate, hk, hcount, hchan, hreq, umod, hpos, hmod],
          rfl, rfl, rfl, rfl⟩
  · exact ⟨⟨.ERR_PTR (-EINVAL), dma_spec, s⟩,
      by simp [rzn1_dmamux_route_allocate, hk, hcount], rfl, rfl, rfl, rfl⟩

/-- The mask of a line below 32 is its single bit. -/
theorem u32_BIT_low (r : Nat) (h : r < 32) : u32 (BIT r) = 2 ^ r := by
  apply Nat.eq_of_testBit_eq
  intro i
  rw [testBit_u32, testBit_BIT, Nat.testBit_two_pow]
  by_cases hi : r = i
  · subst hi
    simp [h, Nat.lt_trans h (by norm_num : 32 < 64)]
  · simp [hi]

/-- The mask of a line from 32 on is empty: a `u32` has no such bit. -/
theorem u32_BIT_high (r : Nat) (h : 32 ≤ r) : u32 (BIT r) = 0 := by
  apply Nat.eq_of_testBit_eq
  intro i
  rw [testBit_u32, testBit_BIT, Nat.zero_testBit]
  by_cases hi : r = i
  · subst hi
    simp [Nat.not_lt.mpr h]
  · simp [hi]

/-- For a line below 32, a successful allocation adds exactly the bit of the
line to the bitmask and writes the hardware with the mask of that bit. -/
theorem route_allocate_low_line (env : mux_env) (s : mux_state)
    (dma_spec : of_phandle_args) (node : Nat)
    (hk : env.kzalloc = true)
    (hcount : dma_spec.args_count = 6)
    (hchan : dma_spec.arg 0 < s.dmamux.dmac_requests)
    (hreq : dma_spec.arg 4 < s.dmamux.dmamux_requests)
    (hmod : dma_spec.arg 4 % s.dmamux.dmac_requests = dma_spec.arg 0)
    (hnp : env.dma_masters (if dma_spec.arg 4 < s.dmamux.dmac_requests then 0 else 1)
      = some node)
    (hu : s.dmamux.used_chans < 2 ^ 32)
    (hlow : dma_spec.arg 4 < 32)
    (hhw : env.set_dmamux (2 ^ dma_spec.arg 4)
      (if dma_spec.arg 5 ≠ 0 then 2 ^ dma_spec.arg 4 else 0) = 0) :
    ∃ r, rzn1_dmamux_route_allocate env s dma_spec = some r ∧
      r.ret = .map { req_idx := dma_spec.arg 4 } ∧
      r.st.dmamux.used_chans = s.dmamux.used_chans ||| 2 ^ dma_spec.arg 4 ∧
      r.st.calls = s.calls ++
        [.of_parse_phandle (if dma_spec.arg 4 < s.dmamux.dmac_requests then 0 else 1),
         .r9a06g032_sysctrl_set_dmamux (2 ^ dma_spec.arg 4)
           (if dma_spec.arg 5 ≠ 0 then 2 ^ dma_spec.arg 4 else 0)] := by
  have h := route_allocate_checked env s dma_spec node hk hcount hchan hreq hmod hnp
  rw [u32_BIT_low _ hlow] at h
  simp only [hhw, ne_eq, not_true_eq_false, if_false] at h
  have hor : s.dmamux.used_chans ||| 2 ^ dma_spec.arg 4 < 2 ^ 32 :=
    Nat.or_lt_two_pow hu (Nat.pow_lt_pow_right (by norm_num) hlow)
  refine ⟨_, h, rfl, ?_, rfl⟩
  exact Nat.mod_eq_of_lt hor

/-- C1: a six-cell request with `chan < dmac_requests`, `req_idx < dmamux_requests`
and `req_idx % dmac_requests = chan`, whose selected "dma-masters" entry resolves
and whose hardware write succeeds (the record allocation having succeeded),
makes `rzn1_dmamux_route_allocate` return a mapping that holds `req_idx`; the
index it looks up in "dma-masters" is 0 exactly when `req_idx < dmac_requests`
and 1 otherwise. -/
theorem route_allocate_valid_succeeds (env : mux_env) (s : mux_state)
    (dma_spec : of_phandle_args) (node : Nat)
    (hk : env.kzalloc = true)
    (hcount : dma_spec.args_count = 6)
    (hchan : dma_spec.arg 0 < s.dmamux.dmac_requests)
    (hreq : dma_spec.arg 4 < s.dmamux.dmamux_requests)
    (hmod : dma_spec.arg 4 % s.dmamux.dmac_requests = dma_spec.arg 0)
    (hnp : env.dma_masters (if dma_spec.arg 4 < s.dmamux.dmac_requests then 0 else 1)
      = some node)
    (hhw : env.set_dmamux (u32 (BIT (dma_spec.arg 4)))
      (if dma_spec.arg 5 ≠ 0 then u32 (BIT (dma_spec.arg 4)) else 0) = 0) :
    ∃ master r,
      (master = 0 ↔ dma_spec.arg 4 < s.dmamux.dmac_requests) ∧
      (master = 0 ∨ master = 1) ∧
      rzn1_dmamux_route_allocate env s dma_spec = some r ∧
      r.ret = .map { req_idx := dma_spec.arg 4 } ∧
      r.dma_spec.np = env.dma_masters master ∧
      r.dma_spec.np = some node ∧
      r.st.calls = s.calls ++
        [.of_parse_phandle master,
         .r9a06g032_sysctrl_set_dmamux (u32 (BIT (dma_spec.arg 4)))
           (if dma_spec.arg 5 ≠ 0 then u32 (BIT (dma_spec.arg 4)) else 0)] := by
  have h := route_allocate_checked env s dma_spec node hk hcount hchan hreq hmod hnp
  simp only [hhw, ne_eq, not_true_eq_false, if_false] at h
  refine ⟨if dma_spec.arg 4 < s.dmamux.dmac_requests then 0 else 1, _, ?_, ?_, h, rfl, ?_, rfl, rfl⟩
  · by_cases hlt : dma_spec.arg 4 < s.dmamux.dmac_requests <;> simp [hlt]
  · by_cases hlt : dma_spec.arg 4 < s.dmamux.dmac_requests <;> simp [hlt]
  · exact hnp.symm

/-- C1, the example of the spec: 8 controller lines, 64 mux lines, `chan = 3`,
`req_idx = 11`, `val = 1`; only index 1 of "dma-masters" resolves. -/
theorem route_allocate_valid_succeeds_witness :
    ∃ master r,
      (master = 0 ↔ (request 3 11 1).arg 4 < (dev_8_64 0).dmamux.dmac_requests) ∧
      (master = 0 ∨ master = 1) ∧
      rzn1_dmamux_route_allocate env_master1 (dev_8_64 0) (request 3 11 1) = some r ∧
      r.ret = .map { req_idx := (request 3 11 1).arg 4 } ∧
      r.dma_spec.np = env_master1.dma_masters master ∧
      r.dma_spec.np = some 7 ∧
      r.st.calls = (dev_8_64 0).calls ++
        [.of_parse_phandle master,
         .r9a06g032_sysctrl_set_dmamux (u32 (BIT ((request 3 11 1).arg 4)))
           (if (request 3 11 1).arg 5 ≠ 0 then u32 (BIT ((request 3 11 1).arg 4)) else 0)] :=
  route_allocate_valid_succeeds env_master1 (dev_8_64 0) (request 3 11 1) 7
    (by decide) (by decide) (by decide) (by decide) (by decide) (by decide) (by decide)

/-- C2, at a request line of the upper half: with 64 mux lines, the request for
line 40 succeeds, but the mask computed for it in a `u32` is 0, so the bitmask
stays as it was (it is not the old bitmask with bit 40 added) and the hardware
write is made with an empty mask. -/
theorem route_allocate_line_40 :
    rzn1_dmamux_route_allocate env_ok (dev_8_64 0) (request 0 40 1) =
      some ⟨.map { req_idx := 40 },
            { np := some 7, args_count := 4, args := [0, 0, 0, 0, 40, 1] },
            { dmamux := { dmac_requests := 8, dmamux_requests := 64, used_chans := 0 },
              calls := [.of_parse_phandle 1, .r9a06g032_sysctrl_set_dmamux 0 0] }⟩ ∧
    (40 < (dev_8_64 0).dmamux.dmamux_requests ∧
      (dev_8_64 0).dmamux.dmamux_requests ≤ RZN1_DMAMUX_LINES) ∧
    (0 : Nat) ≠ (dev_8_64 0).dmamux.used_chans ||| 2 ^ 40 := by
  decide

/-- C3: when the argument count is not six, or `chan ≥ dmac_requests`, or
`req_idx ≥ dmamux_requests`, or `req_idx % dmac_requests ≠ chan`,
`rzn1_dmamux_route_allocate` (the record allocation having succeeded) returns
`ERR_PTR(-EINVAL)` and leaves the device state as it was: same bitmask, no call
of the hardware mux write (no call of a collaborator at all). -/
theorem route_allocate_invalid_rejected (env : mux_env) (s : mux_state)
    (dma_spec : of_phandle_args)
    (hk : env.kzalloc = true)
    (hbad : dma_spec.args_count ≠ 6 ∨ dma_spec.arg 0 ≥ s.dmamux.dmac_requests ∨
      dma_spec.arg 4 ≥ s.dmamux.dmamux_requests ∨
      dma_spec.arg 4 % s.dmamux.dmac_requests ≠ dma_spec.arg 0) :
    ∃ r, rzn1_dmamux_route_allocate env s dma_spec = some r ∧
      r.ret = .ERR_PTR (-EINVAL) ∧
      r.st.dmamux.used_chans = s.dmamux.used_chans ∧
      r.st.calls = s.calls ∧
      r.st = s :=
  route_allocate_rejects env s dma_spec hk hbad

/-- C3 at a request whose mux line is not congruent to the controller line
(`12 % 8 = 4 ≠ 3`). -/
theorem route_allocate_invalid_rejected_witness :
    ∃ r, rzn1_dmamux_route_allocate env_ok (dev_8_64 5) (request 3 12 1) = some r ∧
      r.ret = .ERR_PTR (-EINVAL) ∧
      r.st.dmamux.used_chans = (dev_8_64 5).dmamux.used_chans ∧
      r.st.calls = (dev_8_64 5).calls ∧
      r.st = dev_8_64 5 :=
  route_allocate_invalid_rejected env_ok (dev_8_64 5) (request 3 12 1) (by decide)
    (by decide)

/-- C4, amended: when a request passes every check and the hardware write
returns a non-zero code `e`, `rzn1_dmamux_route_allocate` returns `ERR_PTR(e)`
and leaves the bitmask with bit `req_idx` clear and every other bit as before
the call; so the bitmask is back at its value from before the call whenever bit
`req_idx` was clear then. -/
theorem route_allocate_hw_failure_clears_bit (env : mux_env) (s : mux_state)
    (dma_spec : of_phandle_args) (node : Nat) (e : Int)
    (hk : env.kzalloc = true)
    (hcount : dma_spec.args_count = 6)
    (hchan : dma_spec.arg 0 < s.dmamux.dmac_requests)
    (hreq : dma_spec.arg 4 < s.dmamux.dmamux_requests)
    (hmod : dma_spec.arg 4 % s.dmamux.dmac_requests = dma_spec.arg 0)
    (hnp : env.dma_masters (if dma_spec.arg 4 < s.dmamux.dmac_requests then 0 else 1)
      = some node)
    (hu : s.dmamux.used_chans < 2 ^ 32)
    (he : e ≠ 0)
    (hhw : env.set_dmamux (u32 (BIT (dma_spec.arg 4)))
      (if dma_spec.arg 5 ≠ 0 then u32 (BIT (dma_spec.arg 4)) else 0) = e) :
    ∃ r, rzn1_dmamux_route_allocate env s dma_spec = some r ∧
      r.ret = .ERR_PTR e ∧
      (∀ i, bit_set r.st.dmamux.used_chans i ↔
        (bit_set s.dmamux.used_chans i ∧ i ≠ dma_spec.arg 4)) ∧
      (¬ bit_set s.dmamux.used_chans (dma_spec.arg 4) →
        r.st.dmamux.used_chans = s.dmamux.used_chans) := by
  have h := route_allocate_checked env s dma_spec node hk hcount hchan hreq hmod hnp
  simp only [hhw, ne_eq, he, not_false_eq_true, if_true] at h
  refine ⟨_, h, rfl, ?_, ?_⟩
  · intro i
    simp only [bit_set]
    rw [free_after_set_testBit _ _ _ _ _ _ hu]
    by_cases hi : dma_spec.arg 4 = i
    · simp [hi]
    · simp [hi, Ne.symm hi]
  · intro hclear
    apply Nat.eq_of_testBit_eq
    intro i
    rw [free_after_set_testBit _ _ _ _ _ _ hu]
    by_cases hi : dma_spec.arg 4 = i
    · subst hi
      simp only [bit_set, Bool.not_eq_true] at hclear
      simp [hclear]
    · simp [hi]

/-- C4, amended, on a device whose bit 3 is clear: the failed allocation of line
3 leaves the bitmask at 4. -/
theorem route_allocate_hw_failure_clears_bit_witness :
    ∃ r, rzn1_dmamux_route_allocate env_hw_fails (dev_8_64 4) (request 3 3 1) = some r ∧
      r.ret = .ERR_PTR (-5) ∧
      (∀ i, bit_set r.st.dmamux.used_chans i ↔
        (bit_set (dev_8_64 4).dmamux.used_chans i ∧ i ≠ (request 3 3 1).arg 4)) ∧
      (¬ bit_set (dev_8_64 4).dmamux.used_chans ((request 3 3 1).arg 4) →
        r.st.dmamux.used_chans = (dev_8_64 4).dmamux.used_chans) :=
  route_allocate_hw_failure_clears_bit env_hw_fails (dev_8_64 4) (request 3 3 1) 7 (-5)
    (by decide) (by decide) (by decide) (by decide) (by decide) (by decide) (by decide)
    (by decide) (by decide)

/-- C4 as stated fails: on a device whose bit 3 is already set (bitmask 8), the
request for line 3 passes every check, the hardware write returns `-5`, the call
returns `ERR_PTR(-5)`, and the bitmask afterwards is 0, not 8. -/
theorem route_allocate_rollback_counterexample :
    ∃ r, rzn1_dmamux_route_allocate env_hw_fails (dev_8_64 8) (request 3 3 1) = some r ∧
      r.ret = .ERR_PTR (-5) ∧
      r.st.calls = [.of_parse_phandle 0, .r9a06g032_sysctrl_set_dmamux 8 8] ∧
      (dev_8_64 8).dmamux.used_chans = 8 ∧
      r.st.dmamux.used_chans = 0 ∧
      r.st.dmamux.used_chans ≠ (dev_8_64 8).dmamux.used_chans :=
  ⟨_, rfl, by decide, by decide, by decide, by decide, by decide⟩

/-- C5: `rzn1_dmamux_free` clears exactly the bit of the mapping it is given in
a `u32` bitmask — the bit is 0 afterwards and every other bit keeps its value —
and calls no collaborator, so no hardware mux write is issued.  This holds for
every mapping, in particular for one with `req_idx < dmamux_requests ≤ 64` whose
bit is set. -/
theorem free_clears_exactly_its_bit (s : mux_state) (m : rzn1_dmamux_map)
    (hu : s.dmamux.used_chans < 2 ^ 32) :
    ¬ bit_set (rzn1_dmamux_free s m).dmamux.used_chans m.req_idx ∧
    (∀ i, i ≠ m.req_idx →
      (bit_set (rzn1_dmamux_free s m).dmamux.used_chans i ↔ bit_set s.dmamux.used_chans i)) ∧
    (rzn1_dmamux_free s m).calls = s.calls := by
  refine ⟨?_, ?_, rfl⟩
  · simp [bit_set, free_testBit s m _ hu]
  · intro i hi
    simp [bit_set, free_testBit s m _ hu, Ne.symm hi]

/-- C5 on the bitmask `2 ^ 11 + 1` and the mapping of line 11. -/
theorem free_clears_exactly_its_bit_witness :
    ¬ bit_set (rzn1_dmamux_free (dev_8_64 2049) { req_idx := 11 }).dmamux.used_chans 11 ∧
    (∀ i, i ≠ 11 →
      (bit_set (rzn1_dmamux_free (dev_8_64 2049) { req_idx := 11 }).dmamux.used_chans i ↔
        bit_set (dev_8_64 2049).dmamux.used_chans i)) ∧
    (rzn1_dmamux_free (dev_8_64 2049) { req_idx := 11 }).calls = (dev_8_64 2049).calls :=
  free_clears_exactly_its_bit (dev_8_64 2049) { req_idx := 11 } (by decide)

/-- The four ways `rzn1_dmamux_route_allocate` can end, as far as the device
record is concerned: a trap, a rejection that leaves the record alone, a failed
hardware write, or a success. -/
theorem route_allocate_cases (env : mux_env) (s : mux_state) (dma_spec : of_phandle_args) :
    rzn1_dmamux_route_allocate env s dma_spec = none ∨
    (∃ r e, rzn1_dmamux_route_allocate env s dma_spec = some r ∧ r.ret = .ERR_PTR e ∧
      r.st.dmamux = s.dmamux) ∨
    (∃ r e calls, rzn1_dmamux_route_allocate env s dma_spec = some r ∧ r.ret = .ERR_PTR e ∧
      r.st = rzn1_dmamux_free
        { dmamux := { dmac_requests := s.dmamux.dmac_requests,
                      dmamux_requests := s.dmamux.dmamux_requests,
                      used_chans := u32 (s.dmamux.used_chans ||| u32 (BIT (dma_spec.arg 4))) },
          calls := calls }
        { req_idx := dma_spec.arg 4 }) ∨
    (∃ r, rzn1_dmamux_route_allocate env s dma_spec = some r ∧
      r.ret = .map { req_idx := dma_spec.arg 4 } ∧
      dma_spec.arg 4 < s.dmamux.dmamux_requests ∧
      r.st.dmamux = { dmac_requests := s.dmamux.dmac_requests,
                      dmamux_requests := s.dmamux.dmamux_requests,
                      used_chans := u32 (s.dmamux.used_chans ||| u32 (BIT (dma_spec.arg 4))) }) := by
  by_cases hk : env.kzalloc = true
  swap
  · exact Or.inr (Or.inl ⟨⟨.ERR_PTR (-ENOMEM), dma_spec, s⟩, _,
      by simp [rzn1_dmamux_route_allocate, hk], rfl, rfl⟩)
  by_cases hbad : dma_spec.args_count ≠ 6 ∨ dma_spec.arg 0 ≥ s.dmamux.dmac_requests ∨
      dma_spec.arg 4 ≥ s.dmamux.dmamux_requests ∨
      dma_spec.arg 4 % s.dmamux.dmac_requests ≠ dma_spec.arg 0
  · obtain ⟨r, hr, hret, _, _, hst⟩ := route_allocate_rejects env s dma_spec hk hbad
    exact Or.inr (Or.inl ⟨r, _, hr, hret, by rw [hst]⟩)
  simp only [not_or, not_not, ge_iff_le, not_le] at hbad
  obtain ⟨hcount, hchan, hreq, hmod⟩ := hbad
  cases hnp : env.dma_masters (if dma_spec.arg 4 < s.dmamux.dmac_requests then 0 else 1) with
  | none =>
    have hpos : s.dmamux.dmac_requests ≠ 0 := by omega
    have hm : (if dma_spec.arg 4 ≥ s.dmamux.dmac_requests then 1 else 0)
        = (if dma_spec.arg 4 < s.dmamux.dmac_requests then 0 else 1) := by
      by_cases h : dma_spec.arg 4 < s.dmamux.dmac_requests
      · simp [h]
      · simp [h, Nat.le_of_not_lt h]
    refine Or.inr (Or.inl ⟨⟨.ERR_PTR (-EINVAL),
      { np := none, args_count := 4, args := dma_spec.args },
      { dmamux := s.dmamux, calls := s.calls ++
          [.of_parse_phandle (if dma_spec.arg 4 < s.dmamux.dmac_requests then 0 else 1)] }⟩,
      _, ?_, rfl, rfl⟩)
    simp only [rzn1_dmamux_route_allocate, hk, hcount, umod, hpos, hmod, hm, hnp]
    simp [Nat.not_le.mpr hchan, Nat.not_le.mpr hreq]
  | some node =>
    have h := route_allocate_checked env s dma_spec node hk hcount hchan hreq hmod hnp
    by_cases hhw : env.set_dmamux (u32 (BIT (dma_spec.arg 4)))
        (if dma_spec.arg 5 ≠ 0 then u32 (BIT (dma_spec.arg 4)) else 0) = 0
    · simp only [hhw, ne_eq, not_true_eq_false, if_false] at h
      exact Or.inr (Or.inr (Or.inr ⟨_, h, rfl, hreq, rfl⟩))
    · simp only [ne_eq, hhw, not_false_eq_true, if_true] at h
      exact Or.inr (Or.inr (Or.inl ⟨_, _, _, h, rfl, rfl⟩))

theorem map_eraseIdx_req_idx (l : List rzn1_dmamux_map) (k : Nat) :
    (l.eraseIdx k).map (·.req_idx) = (l.map (·.req_idx)).eraseIdx k := by
  induction l generalizing k with
  | nil => rfl
  | cons a l ih =>
    cases k with
    | zero => rfl
    | succ k => simp [List.eraseIdx, ih]

theorem mem_eraseIdx_of_nodup {l : List Nat} (hl : l.Nodup) (k : Nat) (hk : k < l.length)
    (i : Nat) : i ∈ l.eraseIdx k ↔ (i ∈ l ∧ i ≠ l[k]) := by
  rw [← List.Nodup.erase_getElem hl k hk, List.Nodup.mem_erase_iff hl]
  exact And.comm

/-- One disciplined call keeps the invariant. -/
theorem mux_step_inv (w : mux_sys) (op : mux_op) (hinv : mux_inv w)
    (hfresh : mux_op_fresh w op) : mux_inv (mux_step w op) := by
  obtain ⟨h32, hu, hnd, hbits⟩ := hinv
  cases op with
  | allocate env dma_spec =>
    simp only [mux_op_fresh] at hfresh
    have hclear : w.st.dmamux.used_chans.testBit (dma_spec.arg 4) = false := by
      cases hb : w.st.dmamux.used_chans.testBit (dma_spec.arg 4)
      · rfl
      · exact absurd ((hbits _).mp hb) hfresh
    rcases route_allocate_cases env w.st dma_spec with h | ⟨r, e, h, hret, hst⟩ |
        ⟨r, e, calls, h, hret, hst⟩ | ⟨r, h, hret, hlt, hst⟩
    · simp only [mux_step, h]
      exact ⟨h32, hu, hnd, hbits⟩
    · simp only [mux_step, h, hret]
      refine ⟨?_, ?_, hnd, ?_⟩
      · show r.st.dmamux.dmamux_requests ≤ 32
        rw [hst]; exact h32
      · show r.st.dmamux.used_chans < 2 ^ 32
        rw [hst]; exact hu
      · intro i
        show r.st.dmamux.used_chans.testBit i = true ↔ _
        rw [hst]; exact hbits i
    · simp only [mux_step, h, hret]
      have hb : ∀ i, r.st.dmamux.used_chans.testBit i = w.st.dmamux.used_chans.testBit i := by
        intro i
        rw [hst, free_after_set_testBit _ _ _ _ _ _ hu]
        by_cases hi : dma_spec.arg 4 = i
        · subst hi; simp [hclear]
        · simp [hi]
      refine ⟨?_, ?_, hnd, ?_⟩
      · show r.st.dmamux.dmamux_requests ≤ 32
        rw [hst]; exact h32
      · show r.st.dmamux.used_chans < 2 ^ 32
        rw [hst]; exact u32_lt _
      · intro i
        show r.st.dmamux.used_chans.testBit i = true ↔ _
        rw [hb i]; exact hbits i
    · simp only [mux_step, h, hret]
      have hr32 : dma_spec.arg 4 < 32 := Nat.lt_of_lt_of_le hlt h32
      refine ⟨?_, ?_, ?_, ?_⟩
      · show r.st.dmamux.dmamux_requests ≤ 32
        rw [hst]; exact h32
      · show r.st.dmamux.used_chans < 2 ^ 32
        rw [hst]; exact u32_lt _
      · show ((w.live ++ [({ req_idx := dma_spec.arg 4 } : rzn1_dmamux_map)]).map (·.req_idx)).Nodup
        rw [List.map_append, List.nodup_append]
        refine ⟨hnd, List.nodup_singleton _, ?_⟩
        intro a ha hb
        simp only [List.map_cons, List.map_nil, List.mem_singleton] at hb
        exact hfresh (hb ▸ ha)
      · intro i
        show r.st.dmamux.used_chans.testBit i = true ↔
          i ∈ (w.live ++ [({ req_idx := dma_spec.arg 4 } : rzn1_dmamux_map)]).map (·.req_idx)
        rw [hst]
        simp only [testBit_u32, Nat.testBit_or, testBit_BIT, List.map_append, List.mem_append,
          List.map_cons, List.map_nil, List.mem_singleton, ← hbits i]
        by_cases hi : dma_spec.arg 4 = i
        · subst hi; simp [hr32, Nat.lt_trans hr32 (by norm_num : 32 < 64)]
        · cases hb : w.st.dmamux.used_chans.testBit i
          · simp [hi, Ne.symm hi]
          · simp [hi, lt_32_of_testBit hu hb]
  | free k =>
    cases hk : w.live[k]? with
    | none =>
      simp only [mux_step, hk]
      exact ⟨h32, hu, hnd, hbits⟩
    | some m =>
      simp only [mux_step, hk]
      obtain ⟨hlen, hm⟩ := List.getElem?_eq_some.mp hk
      have hlen2 : k < (w.live.map (·.req_idx)).length := by simpa using hlen
      have hmk : (w.live.map (·.req_idx))[k] = m.req_idx := by simp [hm]
      refine ⟨h32, u32_lt _, ?_, ?_⟩
      · show ((w.live.eraseIdx k).map (·.req_idx)).Nodup
        rw [map_eraseIdx_req_idx]
        exact hnd.sublist (List.eraseIdx_sublist _ _)
      · intro i
        show (rzn1_dmamux_free w.st m).dmamux.used_chans.testBit i = true ↔
          i ∈ (w.live.eraseIdx k).map (·.req_idx)
        rw [map_eraseIdx_req_idx, mem_eraseIdx_of_nodup hnd k hlen2, hmk, free_testBit _ _ _ hu,
          ← hbits i]
        by_cases hi : m.req_idx = i
        · simp [hi]
        · simp [hi, Ne.symm hi]

/-- A disciplined sequence of calls keeps the invariant. -/
theorem mux_run_inv (ops : List mux_op) (w : mux_sys) (hinv : mux_inv w)
    (hfresh : mux_run_fresh w ops) : mux_inv (mux_run w ops) := by
  induction ops generalizing w with
  | nil => exact hinv
  | cons op ops ih =>
    obtain ⟨h1, h2⟩ := hfresh
    exact ih (mux_step w op) (mux_step_inv w op hinv h1) h2

/-- C6, amended: on a device with at most 32 mux lines, starting from the empty
bitmask and applying any sequence of allocations and releases (each release of a
mapping that is held) in which no allocation names a line that a held mapping
already has, bit `i` of the bitmask is set if and only if exactly one held
mapping has `req_idx = i`. -/
theorem mux_bit_iff_one_holder (dmac_requests dmamux_requests : Nat) (ops : List mux_op)
    (h32 : dmamux_requests ≤ 32)
    (hfresh : mux_run_fresh (mux_init dmac_requests dmamux_requests) ops) (i : Nat) :
    bit_set (mux_run (mux_init dmac_requests dmamux_requests) ops).st.dmamux.used_chans i ↔
      holders (mux_run (mux_init dmac_requests dmamux_requests) ops) i = 1 := by
  have hinit : mux_inv (mux_init dmac_requests dmamux_requests) :=
    ⟨h32, by simp [mux_init], by simp [mux_init], by simp [mux_init]⟩
  obtain ⟨_, _, hnd, hbits⟩ := mux_run_inv ops _ hinit hfresh
  unfold bit_set holders
  rw [hbits i, List.count_eq_of_nodup hnd]
  by_cases hi : i ∈ (mux_run (mux_init dmac_requests dmamux_requests) ops).live.map (·.req_idx)
  · simp [hi]
  · simp [hi]

/-- C6, amended, on the sequence: allocate line 3, release it, allocate line 11
and line 3 again, on a device with 8 controller lines and 32 mux lines. -/
theorem mux_bit_iff_one_holder_witness :
    bit_set (mux_run (mux_init 8 32)
        [.allocate env_ok (request 3 3 1), .free 0, .allocate env_ok (request 3 11 1),
         .allocate env_ok (request 3 3 0)]).st.dmamux.used_chans 11 ↔
      holders (mux_run (mux_init 8 32)
        [.allocate env_ok (request 3 3 1), .free 0, .allocate env_ok (request 3 11 1),
         .allocate env_ok (request 3 3 0)]) 11 = 1 :=
  mux_bit_iff_one_holder 8 32
    [.allocate env_ok (request 3 3 1), .free 0, .allocate env_ok (request 3 11 1),
     .allocate env_ok (request 3 3 0)] (by decide)
    (by decide) 11

/-- C6 as stated fails: two allocations of line 3 both succeed; bit 3 is then set
while two held mappings have `req_idx = 3`. -/
theorem mux_double_allocation_counterexample :
    ¬ ∀ i, bit_set (mux_run (mux_init 8 64)
        [.allocate env_ok (request 3 3 1), .allocate env_ok (request 3 3 1)]).st.dmamux.used_chans i ↔
      holders (mux_run (mux_init 8 64)
        [.allocate env_ok (request 3 3 1), .allocate env_ok (request 3 3 1)]) i = 1 := by
  intro h
  have h3 := (h 3).mp (by decide)
  revert h3
  decide

/-! ## Properties of the alias formatter -/

theorem snprintf_ret (m : cbuf) (str size : Nat) (text : List Char) :
    (snprintf m str size text).2 = text.length := rfl

theorem snprintf_size_zero (m : cbuf) (str : Nat) (text : List Char) :
    (snprintf m str 0 text).1 = m := rfl

theorem of_modalias_compat_tsize (st : modalias_state) (c : List Char) :
    (of_modalias_compat st c).tsize = st.tsize + ((c.length : Int) + 1) := by
  unfold of_modalias_compat
  simp only
  split <;> rfl

/-- A compatible string longer than the space that is left is passed over: only
`tsize` grows. -/
theorem of_modalias_compat_skip (st : modalias_state) (c : List Char)
    (h : st.len < (c.length : Int) + 1) :
    of_modalias_compat st c =
      { st with tsize := st.tsize + ((c.length : Int) + 1), skipped := st.skipped ++ [c] } := by
  unfold of_modalias_compat
  simp only [gt_iff_lt, h, if_true]

theorem foldl_compat_tsize (cs : List (List Char)) (st : modalias_state) :
    (cs.foldl of_modalias_compat st).tsize
      = st.tsize + (compat_size cs : Nat) := by
  unfold compat_size
  induction cs generalizing st with
  | nil => simp
  | cons c cs ih =>
    rw [List.foldl_cons, ih, of_modalias_compat_tsize]
    simp only [List.map_cons, List.sum_cons]
    push_cast
    ring

/-- With no space left, the loop stores nothing. -/
theorem foldl_compat_no_space (cs : List (List Char)) (st : modalias_state) (h : st.len ≤ 0) :
    (cs.foldl of_modalias_compat st).mem = st.mem ∧
    (cs.foldl of_modalias_compat st).len = st.len := by
  induction cs generalizing st with
  | nil => exact ⟨rfl, rfl⟩
  | cons c cs ih =>
    have hlt : st.len < (c.length : Int) + 1 := by omega
    rw [List.foldl_cons, of_modalias_compat_skip st c hlt]
    exact ih _ h

theorem of_modalias_tsize (np : device_node) (str : Option (List Char)) (len : Int) :
    (of_modalias np str len).tsize = alias_size np := by
  unfold of_modalias alias_size
  simp only [foldl_compat_tsize, snprintf_ret]
  push_cast
  rfl

/-- C7: `of_modalias` called with a null buffer and length 0 stores nothing and
returns `S = length("of:N" + name + "T" + type)` plus `length c + 1` for every
compatible string `c`; and for every buffer and every `len ≥ 0` it returns this
same `S`. -/
theorem of_modalias_returns_size (np : device_node) :
    (of_modalias np none 0).mem.stores = [] ∧
    (of_modalias np none 0).mem.bytes = [] ∧
    (of_modalias np none 0).tsize = alias_size np ∧
    (alias_size np = ("of:N".toList ++ np.name ++ "T".toList ++ np.device_type.getD []).length
      + (np.compatible.map fun c => c.length + 1).sum) ∧
    ∀ (str : Option (List Char)) (len : Int), 0 ≤ len →
      (of_modalias np str len).tsize = alias_size np := by
  refine ⟨?_, ?_, of_modalias_tsize np none 0, ?_, fun str len _ => of_modalias_tsize np str len⟩
  · unfold of_modalias
    simp only [Int.toNat_zero, snprintf_size_zero]
    rw [(foldl_compat_no_space _ _ (by simp [snprintf_ret])).1]
  · unfold of_modalias
    simp only [Int.toNat_zero, snprintf_size_zero]
    rw [(foldl_compat_no_space _ _ (by simp [snprintf_ret])).1]
    rfl
  · unfold alias_size fmt_name_type compat_size
    simp

theorem store_all_bytes (cs : List Char) :
    ∀ (pre old rest : List Char) (log : List Nat), old.length = cs.length →
      (cbuf.store_all { bytes := pre ++ old ++ rest, stores := log } pre.length cs).bytes
        = pre ++ cs ++ rest := by
  induction cs with
  | nil =>
    intro pre old rest log h
    have : old = [] := List.length_eq_zero.mp h
    subst this
    rfl
  | cons c cs ih =>
    intro pre old rest log h
    cases old with
    | nil => simp at h
    | cons o old =>
      simp only [List.length_cons, Nat.add_right_cancel_iff] at h
      simp only [cbuf.store_all, cbuf.store]
      have hset : (pre ++ o :: old ++ rest).set pre.length c = (pre ++ [c]) ++ old ++ rest := by
        rw [List.append_assoc, List.set_append_right _ _ (Nat.le_refl _)]
        simp
      rw [hset]
      have hlen : pre.length + 1 = (pre ++ [c]).length := by simp
      rw [hlen, ih (pre ++ [c]) old rest _ h]
      simp

theorem strchr_scan_none (seg rest : List Char) (p : Nat) (hsp : ' ' ∉ seg) (hnul : NUL ∉ seg) :
    strchr_scan (seg ++ NUL :: rest) p ' ' = none := by
  induction seg generalizing p with
  | nil => simp [strchr_scan, NUL]
  | cons a seg ih =>
    simp only [List.mem_cons, not_or] at hsp hnul
    rw [List.cons_append]
    simp only [strchr_scan]
    rw [if_neg (Ne.symm hsp.1), if_neg (Ne.symm hnul.1)]
    exact ih _ hsp.2 hnul.2

theorem strchr_scan_some (a b : List Char) (p : Nat) (hsp : ' ' ∉ a) (hnul : NUL ∉ a) :
    strchr_scan (a ++ ' ' :: b) p ' ' = some (p + a.length) := by
  induction a generalizing p with
  | nil => simp [strchr_scan]
  | cons x a ih =>
    simp only [List.mem_cons, not_or] at hsp hnul
    rw [List.cons_append]
    simp only [strchr_scan]
    rw [if_neg (Ne.symm hsp.1), if_neg (Ne.symm hnul.1), ih _ hsp.2 hnul.2]
    simp only [List.length_cons]
    congr 1
    omega

theorem map_underscore_of_no_space (a : List Char) (h : ' ' ∉ a) : a.map underscore = a := by
  induction a with
  | nil => rfl
  | cons x a ih =>
    simp only [List.mem_cons, not_or] at h
    simp only [List.map_cons, ih h.2, underscore, if_neg (Ne.symm h.1)]

/-- The substitution loop, run on a terminated segment with enough passes,
replaces every space of the segment and nothing else. -/
theorem replace_spaces_bytes (fuel : Nat) :
    ∀ (pre seg rest : List Char) (log : List Nat), NUL ∉ seg → seg.count ' ' < fuel →
      (replace_spaces fuel { bytes := pre ++ seg ++ NUL :: rest, stores := log }
        (some pre.length)).bytes = pre ++ seg.map underscore ++ NUL :: rest := by
  induction fuel with
  | zero => intro pre seg rest log _ h; omega
  | succ fuel ih =>
    intro pre seg rest log hnul hfuel
    by_cases hsp : ' ' ∈ seg
    · obtain ⟨a, b, hab, ha⟩ := List.eq_append_cons_of_mem hsp
      subst hab
      have hnula : NUL ∉ a := fun h => hnul (List.mem_append_left _ h)
      have hnulb : NUL ∉ b := fun h =>
        hnul (List.mem_append_right _ (List.mem_cons_of_mem _ h))
      have hscan : strchr (pre ++ (a ++ ' ' :: b) ++ NUL :: rest) pre.length ' '
          = some (pre.length + a.length) := by
        unfold strchr
        rw [List.append_assoc, List.drop_left, List.append_assoc, List.cons_append]
        exact strchr_scan_some a _ _ ha hnula
      simp only [replace_spaces, hscan, cbuf.store]
      have hset : (pre ++ (a ++ ' ' :: b) ++ NUL :: rest).set (pre.length + a.length) '_'
          = (pre ++ a ++ ['_']) ++ b ++ NUL :: rest := by
        have e : pre ++ (a ++ ' ' :: b) ++ NUL :: rest
            = (pre ++ a) ++ (' ' :: (b ++ NUL :: rest)) := by simp
        rw [e, List.set_append_right _ _ (by simp)]
        simp
      have hlen : pre.length + a.length + 1 = (pre ++ a ++ ['_']).length := by
        simp only [List.length_append, List.length_cons, List.length_nil]
      have hcount : b.count ' ' < fuel := by
        have : (a ++ ' ' :: b).count ' ' = a.count ' ' + (b.count ' ' + 1) := by
          simp [List.count_append]
        omega
      rw [hset, hlen, ih (pre ++ a ++ ['_']) b rest _ hnulb hcount]
      simp [map_underscore_of_no_space a ha, underscore]
    · have hscan : strchr (pre ++ seg ++ NUL :: rest) pre.length ' ' = none := by
        unfold strchr
        rw [List.append_assoc, List.drop_left]
        exact strchr_scan_none seg rest _ hsp hnul
      simp only [replace_spaces, hscan]
      cases fuel <;> simp [replace_spaces, map_underscore_of_no_space seg hsp]

theorem store_all_bytes_of (m : cbuf) (cs pre old rest : List Char)
    (hm : m.bytes = pre ++ old ++ rest) (h : old.length = cs.length) :
    (m.store_all pre.length cs).bytes = pre ++ cs ++ rest := by
  cases m with
  | mk bytes log =>
    simp only at hm
    subst hm
    exact store_all_bytes cs pre old rest log h

theorem replace_spaces_bytes_of (fuel : Nat) (m : cbuf) (pre seg rest : List Char)
    (hm : m.bytes = pre ++ seg ++ NUL :: rest) (hnul : NUL ∉ seg) (hfuel : seg.count ' ' < fuel) :
    (replace_spaces fuel m (some pre.length)).bytes = pre ++ seg.map underscore ++ NUL :: rest := by
  cases m with
  | mk bytes log =>
    simp only at hm
    subst hm
    exact replace_spaces_bytes fuel pre seg rest log hnul hfuel

theorem underscore_ne_NUL (ch : Char) (h : ch ≠ NUL) : underscore ch ≠ NUL := by
  unfold underscore
  split
  · decide
  · exact h

/-- One pass of the loop on a compatible string that is not passed over. -/
theorem of_modalias_compat_fits (st : modalias_state) (c pre old rest : List Char) (n : Nat)
    (hlen : st.len = (n : Int)) (hfit : c.length + 1 ≤ n)
    (hbytes : st.mem.bytes = pre ++ old ++ rest) (hstr : st.str = pre.length)
    (hold : old.length = min (n - 1) (c.length + 1) + 1)
    (hnul : NUL ∉ c) :
    (of_modalias_compat st c).mem.bytes
      = pre ++ ('C' :: c.map underscore).take (n - 1) ++ NUL :: rest ∧
    (of_modalias_compat st c).str = pre.length + (c.length + 1) ∧
    (of_modalias_compat st c).len = ((n - (c.length + 1) : Nat) : Int) ∧
    (of_modalias_compat st c).skipped = st.skipped := by
  have hcond : ¬ ((c.length : Int) + 1 > (n : Int)) := by omega
  have hn : n ≠ 0 := by omega
  unfold of_modalias_compat
  simp only [hlen, hcond, if_false, snprintf, Int.toNat_ofNat, hn, hstr]
  have hseg : NUL ∉ ('C' :: c).take (n - 1) := by
    intro h
    have := List.mem_of_mem_take h
    simp only [List.mem_cons] at this
    rcases this with h1 | h1
    · exact absurd h1 (by decide)
    · exact hnul h1
  have h1 : (st.mem.store_all pre.length (('C' :: c).take (n - 1) ++ [NUL])).bytes
      = pre ++ ('C' :: c).take (n - 1) ++ NUL :: rest := by
    rw [store_all_bytes_of st.mem _ pre old rest hbytes (by simp [hold])]
    simp
  refine ⟨?_, ?_, ?_, trivial⟩
  · rw [replace_spaces_bytes_of _ _ pre (('C' :: c).take (n - 1)) rest h1 hseg]
    · rw [List.map_take]
      simp [underscore]
    · have hc : (('C' :: c).take (n - 1)).count ' ' ≤ (('C' :: c).take (n - 1)).length :=
        List.count_le_length _ _
      rw [h1]
      simp only [List.length_append, List.length_cons]
      omega
  · simp
  · simp only [List.length_cons]
    omega

theorem compat_size_cons (c : List Char) (cs : List (List Char)) :
    compat_size (c :: cs) = (c.length + 1) + compat_size cs := by
  simp [compat_size]

theorem compat_text_cons (c : List Char) (cs : List (List Char)) :
    compat_text (c :: cs) = ('C' :: c.map underscore) ++ compat_text cs := by
  simp [compat_text]

theorem compat_text_length (cs : List (List Char)) :
    (compat_text cs).length = compat_size cs := by
  induction cs with
  | nil => rfl
  | cons c cs ih =>
    rw [compat_text_cons, compat_size_cons, List.length_append, ih]
    simp

theorem compat_size_eq_zero (cs : List (List Char)) (h : compat_size cs = 0) : cs = [] := by
  cases cs with
  | nil => rfl
  | cons c cs => rw [compat_size_cons] at h; omega

/-- The loop over the compatible strings when the space that is left holds all
of them: nothing is passed over, and the buffer receives the text of the strings
cut after `n - 1` characters, followed by a terminator. -/
theorem foldl_compat_fits (cs : List (List Char)) :
    ∀ (st : modalias_state) (pre rest : List Char) (n : Nat),
      st.len = (n : Int) → compat_size cs ≤ n →
      st.mem.bytes = pre ++ NUL :: rest → st.str = pre.length →
      n ≤ rest.length + 1 → (∀ c ∈ cs, NUL ∉ c) →
      (cs.foldl of_modalias_compat st).mem.bytes
        = pre ++ (compat_text cs).take (n - 1)
            ++ NUL :: rest.drop (min (compat_size cs) (n - 1)) ∧
      (cs.foldl of_modalias_compat st).skipped = st.skipped := by
  induction cs with
  | nil =>
    intro st pre rest n _ _ hb _ _ _
    simp [compat_text, compat_size, hb]
  | cons c cs ih =>
    intro st pre rest n hlen hsize hb hstr hroom hnul
    rw [compat_size_cons] at hsize
    have hnulc : NUL ∉ c := hnul c (List.mem_cons_self _ _)
    have hk : min (n - 1) (c.length + 1) ≤ rest.length := by omega
    have hb2 : st.mem.bytes = pre ++ (NUL :: rest.take (min (n - 1) (c.length + 1)))
        ++ rest.drop (min (n - 1) (c.length + 1)) := by
      rw [hb]; simp
    obtain ⟨h1, h2, h3, h4⟩ := of_modalias_compat_fits st c pre _ _ n hlen (by omega) hb2 hstr
      (by simp [List.length_take, hk]) hnulc
    rw [List.foldl_cons]
    by_cases hlt : c.length + 1 < n
    · have hmin : min (n - 1) (c.length + 1) = c.length + 1 := by omega
      have htake : ('C' :: c.map underscore).take (n - 1) = 'C' :: c.map underscore := by
        apply List.take_of_length_le
        simp only [List.length_cons, List.length_map]
        omega
      rw [htake, hmin] at h1
      have h1b : (of_modalias_compat st c).mem.bytes
          = (pre ++ 'C' :: c.map underscore) ++ NUL :: rest.drop (c.length + 1) := h1
      obtain ⟨g1, g2⟩ := ih (of_modalias_compat st c) (pre ++ 'C' :: c.map underscore)
        (rest.drop (c.length + 1)) (n - (c.length + 1)) h3 (by omega) h1b
        (by rw [h2]; simp) (by rw [List.length_drop]; omega)
        (fun x hx => hnul x (List.mem_cons_of_mem _ hx))
      refine ⟨?_, g2.trans h4⟩
      rw [g1, compat_text_cons, compat_size_cons, List.take_append_eq_append_take, htake,
        List.drop_drop]
      simp only [List.length_cons, List.length_map, List.append_assoc]
      have e2 : c.length + 1 + min (compat_size cs) (n - 1 - (c.length + 1))
          = min (c.length + 1 + compat_size cs) (n - 1) := by omega
      have e1 : n - (c.length + 1) - 1 = n - 1 - (c.length + 1) := by omega
      rw [e1, e2]
    · have hn : n = c.length + 1 := by omega
      have hcs : cs = [] := compat_size_eq_zero cs (by omega)
      subst hcs
      refine ⟨?_, h4⟩
      rw [List.foldl_nil, h1, compat_text_cons, compat_size_cons]
      have hmin : min (n - 1) (c.length + 1) = min (c.length + 1 + compat_size []) (n - 1) := by
        simp only [compat_size, List.map_nil, List.sum_nil]
        omega
      rw [hmin]
      simp [compat_text]

theorem fmt_name_type_length (np : device_node) :
    (fmt_name_type np).length = 5 + np.name.length + (np.device_type.getD []).length := by
  simp [fmt_name_type]
  omega

/-- The whole of `of_modalias` on a buffer of `n` bytes, `n` being at least the
size it returns: no compatible string is passed over, and the buffer receives the
first `n - 1` characters of the alias followed by a terminator; the bytes after
the terminator are not touched. -/
theorem of_modalias_fits (np : device_node) (buf : List Char) (n : Nat)
    (hS : alias_size np ≤ n) (hbuf : n ≤ buf.length)
    (hwf : ∀ c ∈ np.compatible, NUL ∉ c) :
    (of_modalias np (some buf) n).mem.bytes
      = (alias_text np).take (n - 1) ++ NUL :: buf.drop (min (alias_size np) (n - 1) + 1) ∧
    (of_modalias np (some buf) n).skipped = [] := by
  have hP := fmt_name_type_length np
  unfold alias_size at hS
  have hn : n ≠ 0 := by omega
  unfold of_modalias
  simp only [Option.getD_some, Option.isSome_some, if_true, snprintf, Int.toNat_ofNat, hn,
    if_false]
  by_cases hlt : (fmt_name_type np).length < n
  · have htake : (fmt_name_type np).take (n - 1) = fmt_name_type np :=
      List.take_of_length_le (by omega)
    have hb0 : (cbuf.store_all { bytes := buf, stores := [] } 0
        ((fmt_name_type np).take (n - 1) ++ [NUL])).bytes
        = fmt_name_type np ++ NUL :: buf.drop ((fmt_name_type np).length + 1) := by
      have := store_all_bytes_of { bytes := buf, stores := [] }
        ((fmt_name_type np).take (n - 1) ++ [NUL]) []
        (buf.take ((fmt_name_type np).length + 1)) (buf.drop ((fmt_name_type np).length + 1))
        (by simp) (by rw [htake, List.length_take]; simp; omega)
      rw [List.length_nil] at this
      rw [this, htake]
      simp
    obtain ⟨g1, g2⟩ := foldl_compat_fits np.compatible
      { mem := cbuf.store_all { bytes := buf, stores := [] } 0
          ((fmt_name_type np).take (n - 1) ++ [NUL]),
        str := (fmt_name_type np).length,
        len := (n : Int) - ((fmt_name_type np).length : Nat),
        tsize := ((fmt_name_type np).length : Nat), skipped := [] }
      (fmt_name_type np) (buf.drop ((fmt_name_type np).length + 1))
      (n - (fmt_name_type np).length)
      (by simp only; omega) (by omega) hb0 rfl (by rw [List.length_drop]; omega) hwf
    refine ⟨?_, g2⟩
    rw [g1, alias_text, List.take_append_eq_append_take, htake, List.drop_drop]
    unfold alias_size
    have e1 : n - (fmt_name_type np).length - 1 = n - 1 - (fmt_name_type np).length := by omega
    have e2 : (fmt_name_type np).length + 1
          + min (compat_size np.compatible) (n - 1 - (fmt_name_type np).length)
        = min ((fmt_name_type np).length + compat_size np.compatible) (n - 1) + 1 := by omega
    rw [e1, e2]
  · have hn2 : n = (fmt_name_type np).length := by omega
    have hcs : np.compatible = [] := compat_size_eq_zero _ (by omega)
    have hb0 : (cbuf.store_all { bytes := buf, stores := [] } 0
        ((fmt_name_type np).take (n - 1) ++ [NUL])).bytes
        = (fmt_name_type np).take (n - 1) ++ NUL :: buf.drop n := by
      have := store_all_bytes_of { bytes := buf, stores := [] }
        ((fmt_name_type np).take (n - 1) ++ [NUL]) []
        (buf.take n) (buf.drop n)
        (by simp) (by simp [List.length_take]; omega)
      rw [List.length_nil] at this
      rw [this]
      simp
    rw [hcs]
    refine ⟨?_, rfl⟩
    rw [List.foldl_nil]
    simp only [hb0, alias_text, alias_size, hcs, compat_text, compat_size, List.map_nil,
      List.flatten_nil, List.sum_nil, List.append_nil, Nat.add_zero]
    have e : min (fmt_name_type np).length (n - 1) + 1 = n := by omega
    rw [e]

theorem cstring_terminated (a rest : List Char) (h : NUL ∉ a) :
    cstring (a ++ NUL :: rest) = a := by
  unfold cstring
  rw [List.takeWhile_append_of_pos]
  · simp [List.takeWhile]
  · intro x hx
    simp only [ne_eq, decide_eq_true_eq]
    intro hxn
    exact h (hxn ▸ hx)

theorem cstring_length_le (a rest : List Char) : (cstring (a ++ NUL :: rest)).length ≤ a.length := by
  unfold cstring
  induction a with
  | nil => simp [List.takeWhile]
  | cons x a ih =>
    rw [List.cons_append, List.takeWhile_cons]
    split
    · simp only [List.length_cons]; omega
    · simp

theorem compat_text_no_NUL (cs : List (List Char)) (h : ∀ c ∈ cs, NUL ∉ c) :
    NUL ∉ compat_text cs := by
  induction cs with
  | nil => simp [compat_text]
  | cons c cs ih =>
    rw [compat_text_cons]
    simp only [List.cons_append, List.mem_cons, List.mem_append, List.mem_map, not_or]
    refine ⟨by decide, ?_, ih (fun x hx => h x (List.mem_cons_of_mem _ hx))⟩
    rintro ⟨ch, hch, heq⟩
    have hne : ch ≠ NUL := fun e => h c (List.mem_cons_self _ _) (e ▸ hch)
    exact underscore_ne_NUL ch hne heq

theorem alias_text_no_NUL (np : device_node) (hwf : np.wf) : NUL ∉ alias_text np := by
  obtain ⟨hname, htype, hcompat⟩ := hwf
  unfold alias_text fmt_name_type
  simp only [List.mem_append, List.mem_cons, not_or]
  refine ⟨⟨⟨by decide, hname⟩, by decide, ?_⟩, compat_text_no_NUL _ hcompat⟩
  cases ht : np.device_type with
  | none => simp
  | some t => simpa using htype t ht

theorem alias_text_length (np : device_node) : (alias_text np).length = alias_size np := by
  simp [alias_text, alias_size, compat_text_length]

/-- With room for the whole alias and its terminator, the buffer holds the alias
as a C string. -/
theorem of_modalias_roomy (np : device_node) (buf : List Char) (len : Nat)
    (hwf : np.wf) (hlen : alias_size np + 1 ≤ len) (hbuf : len ≤ buf.length) :
    (of_modalias np (some buf) len).mem.bytes
      = alias_text np ++ NUL :: buf.drop (alias_size np + 1) ∧
    cstring (of_modalias np (some buf) len).mem.bytes = alias_text np := by
  obtain ⟨h1, _⟩ := of_modalias_fits np buf len (by omega) hbuf hwf.2.2
  have htake : (alias_text np).take (len - 1) = alias_text np :=
    List.take_of_length_le (by rw [alias_text_length]; omega)
  have hmin : min (alias_size np) (len - 1) = alias_size np := by omega
  rw [htake, hmin] at h1
  exact ⟨h1, by rw [h1, cstring_terminated _ _ (alias_text_no_NUL np hwf)]⟩

theorem substituted_eq_count (c : List Char) : substituted c = c.count ' ' := by
  unfold substituted
  induction c with
  | nil => rfl
  | cons x c ih =>
    simp only [List.map_cons, List.zip_cons_cons, List.filter_cons, List.count_cons]
    by_cases hx : x = ' '
    · subst hx
      simp only [underscore, if_true]
      rw [if_pos (by decide)]
      simp only [List.length_cons, ih]
      simp
    · have hu : underscore x = x := by simp [underscore, hx]
      rw [hu]
      simp only [ne_eq, not_true_eq_false, decide_False, Bool.false_eq_true, if_false, ih]
      simp [hx]

/-- C8: given a buffer with room for the whole alias and its terminator
(`len ≥ S + 1`), `of_modalias` leaves in it exactly the string
`"of:N" + name + "T" + type` followed, for each compatible string in order, by
`"C"` + that string with every space replaced by `_` and every other character
unchanged; each such segment has `length c + 1` characters, the number of
replaced characters is the number of spaces of `c`, and the name and type part is
not subject to the substitution. -/
theorem of_modalias_writes_alias (np : device_node) (buf : List Char) (len : Nat)
    (hwf : np.wf) (hlen : alias_size np + 1 ≤ len) (hbuf : len ≤ buf.length) :
    cstring (of_modalias np (some buf) len).mem.bytes
      = "of:N".toList ++ np.name ++ "T".toList ++ np.device_type.getD []
        ++ (np.compatible.map fun c => 'C' :: c.map underscore).flatten ∧
    (of_modalias np (some buf) len).mem.bytes
      = alias_text np ++ NUL :: buf.drop (alias_size np + 1) ∧
    (∀ s ∈ np.compatible,
      ('C' :: s.map underscore).length = s.length + 1 ∧
      (∀ i : Nat, (s.map underscore)[i]? = s[i]?.map fun ch => if ch = ' ' then '_' else ch) ∧
      substituted s = s.count ' ') := by
  obtain ⟨h1, h2⟩ := of_modalias_roomy np buf len hwf hlen hbuf
  refine ⟨?_, h1, ?_⟩
  · rw [h2]
    simp [alias_text, fmt_name_type, compat_text]
  · intro c _
    refine ⟨by simp, ?_, substituted_eq_count c⟩
    intro i
    rw [List.getElem?_map]
    rfl

theorem node_uart_wf : node_uart.wf :=
  ⟨by decide, by simp [node_uart], by decide⟩

/-- C8 on the node of the spec's example, with a buffer of 64 bytes and
`len = 50`. -/
theorem of_modalias_writes_alias_witness :
    cstring (of_modalias node_uart (some (List.replicate 64 'x')) (50 : Nat)).mem.bytes
      = "of:N".toList ++ node_uart.name ++ "T".toList ++ node_uart.device_type.getD []
        ++ (node_uart.compatible.map fun c => 'C' :: c.map underscore).flatten :=
  (of_modalias_writes_alias node_uart (List.replicate 64 'x') 50 node_uart_wf
    (by decide) (by decide)).1

/-- C7 on the node of the spec's example: the size is 42 for the null buffer and
for a buffer of 50 bytes. -/
theorem of_modalias_returns_size_witness :
    (of_modalias node_uart none 0).tsize = 42 ∧
    (of_modalias node_uart (some (List.replicate 50 'x')) 50).tsize = 42 :=
  ⟨(of_modalias_returns_size node_uart).2.2.1.trans (by decide),
   ((of_modalias_returns_size node_uart).2.2.2.2 (some (List.replicate 50 'x')) 50
      (by decide)).trans (by decide)⟩

/-- C9: if `of_modalias` with a null buffer returns `S`, then the call with a
buffer of exactly `S` bytes, and likewise of `S + 1` bytes, leaves a string of
length at most `S` (the first `len - 1` characters of the alias), passes over no
compatible string, and returns `S` again. -/
theorem of_modalias_size_then_fill (np : device_node) (S : Nat) (buf : List Char) (len : Nat)
    (hwf : np.wf)
    (hS : (of_modalias np none 0).tsize = (S : Int))
    (hlen : len = S ∨ len = S + 1) (hbuf : len ≤ buf.length) :
    (cstring (of_modalias np (some buf) len).mem.bytes).length ≤ S ∧
    cstring (of_modalias np (some buf) len).mem.bytes = (alias_text np).take (len - 1) ∧
    (of_modalias np (some buf) len).skipped = [] ∧
    (of_modalias np (some buf) len).tsize = (S : Int) := by
  have hsz : alias_size np = S := by
    have := of_modalias_tsize np none 0
    rw [hS] at this
    exact_mod_cast this.symm
  obtain ⟨h1, h2⟩ := of_modalias_fits np buf len (by omega) hbuf hwf.2.2
  have hnul : NUL ∉ (alias_text np).take (len - 1) :=
    fun h => alias_text_no_NUL np hwf (List.mem_of_mem_take h)
  have hc : cstring (of_modalias np (some buf) len).mem.bytes = (alias_text np).take (len - 1) := by
    rw [h1, cstring_terminated _ _ hnul]
  refine ⟨?_, hc, h2, ?_⟩
  · rw [hc, List.length_take, alias_text_length]
    omega
  · rw [of_modalias_tsize, hsz]

/-- C9 on the node of the spec's example, whose size is 42, with a buffer of
exactly 42 bytes. -/
theorem of_modalias_size_then_fill_witness :
    (cstring (of_modalias node_uart (some (List.replicate 42 'x')) (42 : Nat)).mem.bytes).length
      ≤ 42 ∧
    cstring (of_modalias node_uart (some (List.replicate 42 'x')) (42 : Nat)).mem.bytes
      = (alias_text node_uart).take (42 - 1) ∧
    (of_modalias node_uart (some (List.replicate 42 'x')) (42 : Nat)).skipped = [] ∧
    (of_modalias node_uart (some (List.replicate 42 'x')) (42 : Nat)).tsize = (42 : Nat) :=
  of_modalias_size_then_fill node_uart 42 (List.replicate 42 'x') 42 node_uart_wf
    (by decide) (Or.inl rfl) (by decide)

/-- C10: for the node named `uart@1000` without device type and with the
compatible strings `vendor,uart-a` and `vendor,uart b`, `of_modalias` with a
buffer that holds the alias and its terminator (`len ≥ 43`) leaves the string
`of:Nuart@1000T` + `Cvendor,uart-a` + `Cvendor,uart_b`: the type field is empty
and only the space inside the second compatible string is replaced. -/
theorem of_modalias_uart_example (buf : List Char) (len : Nat)
    (hlen : 43 ≤ len) (hbuf : len ≤ buf.length) :
    cstring (of_modalias node_uart (some buf) len).mem.bytes
      = "of:Nuart@1000T".toList ++ "Cvendor,uart-a".toList ++ "Cvendor,uart_b".toList ∧
    (of_modalias node_uart (some buf) len).tsize = 42 := by
  have hsz : alias_size node_uart = 42 := by decide
  obtain ⟨_, h2⟩ := of_modalias_roomy node_uart buf len node_uart_wf (by omega) hbuf
  refine ⟨?_, ?_⟩
  · rw [h2]
    decide
  · rw [of_modalias_tsize, hsz]
    rfl

/-- C10 with a buffer of 64 bytes. -/
theorem of_modalias_uart_example_witness :
    cstring (of_modalias node_uart (some (List.replicate 64 'x')) (64 : Nat)).mem.bytes
      = "of:Nuart@1000T".toList ++ "Cvendor,uart-a".toList ++ "Cvendor,uart_b".toList ∧
    (of_modalias node_uart (some (List.replicate 64 'x')) (64 : Nat)).tsize = 42 :=
  of_modalias_uart_example (List.replicate 64 'x') 64 (by decide) (by decide)

/-! ## Further properties of the mux allocator -/

/-- A call that returns a mapping has passed every check: the allocation, the
argument count, the two bounds, the congruence, the phandle lookup and the
hardware write. -/
theorem route_allocate_success (env : mux_env) (s : mux_state) (dma_spec : of_phandle_args)
    (r : alloc_result) (m : rzn1_dmamux_map)
    (h : rzn1_dmamux_route_allocate env s dma_spec = some r) (hret : r.ret = .map m) :
    env.kzalloc = true ∧ dma_spec.args_count = 6 ∧
    dma_spec.arg 0 < s.dmamux.dmac_requests ∧ dma_spec.arg 4 < s.dmamux.dmamux_requests ∧
    dma_spec.arg 4 % s.dmamux.dmac_requests = dma_spec.arg 0 ∧
    (∃ node, env.dma_masters (if dma_spec.arg 4 < s.dmamux.dmac_requests then 0 else 1)
      = some node) ∧
    env.set_dmamux (u32 (BIT (dma_spec.arg 4)))
      (if dma_spec.arg 5 ≠ 0 then u32 (BIT (dma_spec.arg 4)) else 0) = 0 := by
  by_cases hk : env.kzalloc = true
  swap
  · have h2 : rzn1_dmamux_route_allocate env s dma_spec
        = some ⟨.ERR_PTR (-ENOMEM), dma_spec, s⟩ := by
      simp [rzn1_dmamux_route_allocate, hk]
    rw [h2] at h
    cases h
    cases hret
  by_cases hbad : dma_spec.args_count ≠ 6 ∨ dma_spec.arg 0 ≥ s.dmamux.dmac_requests ∨
      dma_spec.arg 4 ≥ s.dmamux.dmamux_requests ∨
      dma_spec.arg 4 % s.dmamux.dmac_requests ≠ dma_spec.arg 0
  · obtain ⟨r2, hr, hret2, _⟩ := route_allocate_rejects env s dma_spec hk hbad
    rw [hr] at h
    cases h
    rw [hret2] at hret
    cases hret
  simp only [not_or, not_not, ge_iff_le, not_le] at hbad
  obtain ⟨hcount, hchan, hreq, hmod⟩ := hbad
  cases hnp : env.dma_masters (if dma_spec.arg 4 < s.dmamux.dmac_requests then 0 else 1) with
  | none =>
    have hpos : s.dmamux.dmac_requests ≠ 0 := by omega
    have hm : (if dma_spec.arg 4 ≥ s.dmamux.dmac_requests then 1 else 0)
        = (if dma_spec.arg 4 < s.dmamux.dmac_requests then 0 else 1) := by
      by_cases h : dma_spec.arg 4 < s.dmamux.dmac_requests
      · simp [h]
      · simp [h, Nat.le_of_not_lt h]
    have h2 : rzn1_dmamux_route_allocate env s dma_spec
        = some ⟨.ERR_PTR (-EINVAL), { np := none, args_count := 4, args := dma_spec.args },
            { dmamux := s.dmamux, calls := s.calls ++
              [.of_parse_phandle (if dma_spec.arg 4 < s.dmamux.dmac_requests then 0 else 1)] }⟩ := by
      simp only [rzn1_dmamux_route_allocate, hk, hcount, umod, hpos, hmod, hm, hnp]
      simp [Nat.not_le.mpr hchan, Nat.not_le.mpr hreq]
    rw [h2] at h
    cases h
    cases hret
  | some node =>
    have h2 := route_allocate_checked env s dma_spec node hk hcount hchan hreq hmod hnp
    by_cases hhw : env.set_dmamux (u32 (BIT (dma_spec.arg 4)))
        (if dma_spec.arg 5 ≠ 0 then u32 (BIT (dma_spec.arg 4)) else 0) = 0
    · exact ⟨hk, hcount, hchan, hreq, hmod, ⟨node, rfl⟩, hhw⟩
    · simp only [ne_eq, hhw, not_false_eq_true, if_true] at h2
      rw [h2] at h
      cases h
      cases hret

/-- C19: in `rzn1_dmamux_route_allocate` the modulo is never evaluated with a
zero divisor.  On a device with `dmac_requests = 0` the call never ends in the
trap of the modulo, for every `chan` and `req_idx`; when the record allocation
succeeds it returns `ERR_PTR(-EINVAL)` with the device state untouched, the
check `chan >= dmac_requests` (or the argument count) having rejected the
request first. -/
theorem route_allocate_zero_divisor_guarded (env : mux_env) (s : mux_state)
    (dma_spec : of_phandle_args) (h0 : s.dmamux.dmac_requests = 0) :
    rzn1_dmamux_route_allocate env s dma_spec ≠ none ∧
    (env.kzalloc = true →
      ∃ r, rzn1_dmamux_route_allocate env s dma_spec = some r ∧
        r.ret = .ERR_PTR (-EINVAL) ∧ r.st = s ∧
        (dma_spec.args_count = 6 →
          r.dma_spec = { np := dma_spec.np, args_count := 4, args := dma_spec.args })) := by
  have hk2 : env.kzalloc = true →
      ∃ r, rzn1_dmamux_route_allocate env s dma_spec = some r ∧
        r.ret = .ERR_PTR (-EINVAL) ∧ r.st = s ∧
        (dma_spec.args_count = 6 →
          r.dma_spec = { np := dma_spec.np, args_count := 4, args := dma_spec.args }) := by
    intro hk
    by_cases hcount : dma_spec.args_count = 6
    · have hchan : dma_spec.arg 0 ≥ s.dmamux.dmac_requests := by omega
      exact ⟨⟨.ERR_PTR (-EINVAL), { dma_spec with args_count := 4 }, s⟩,
        by simp [rzn1_dmamux_route_allocate, hk, hcount, hchan], rfl, rfl, fun _ => rfl⟩
    · exact ⟨⟨.ERR_PTR (-EINVAL), dma_spec, s⟩,
        by simp [rzn1_dmamux_route_allocate, hk, hcount], rfl, rfl,
        fun h => absurd h hcount⟩
  refine ⟨?_, hk2⟩
  by_cases hk : env.kzalloc = true
  · obtain ⟨r, hr, _⟩ := hk2 hk
    rw [hr]
    exact Option.some_ne_none r
  · have h2 : rzn1_dmamux_route_allocate env s dma_spec
        = some ⟨.ERR_PTR (-ENOMEM), dma_spec, s⟩ := by
      simp [rzn1_dmamux_route_allocate, hk]
    rw [h2]
    exact Option.some_ne_none _

/-- C19 on a device with no controller line, for the request of the spec's
example. -/
theorem route_allocate_zero_divisor_guarded_witness :
    rzn1_dmamux_route_allocate env_ok
        { dmamux := { dmac_requests := 0, dmamux_requests := 64, used_chans := 0 },
          calls := [] } (request 3 11 1) ≠ none ∧
    (env_ok.kzalloc = true →
      ∃ r, rzn1_dmamux_route_allocate env_ok
          { dmamux := { dmac_requests := 0, dmamux_requests := 64, used_chans := 0 },
            calls := [] } (request 3 11 1) = some r ∧
        r.ret = .ERR_PTR (-EINVAL) ∧
        r.st = { dmamux := { dmac_requests := 0, dmamux_requests := 64, used_chans := 0 },
                 calls := [] } ∧
        ((request 3 11 1).args_count = 6 →
          r.dma_spec = { np := (request 3 11 1).np, args_count := 4,
                         args := (request 3 11 1).args })) :=
  route_allocate_zero_divisor_guarded env_ok
    { dmamux := { dmac_requests := 0, dmamux_requests := 64, used_chans := 0 }, calls := [] }
    (request 3 11 1) rfl

/-- C20: after a successful `rzn1_dmamux_route_allocate` the request specifier,
which came with six cells, is left with an argument count of 4, with its
argument cells (the first four in particular) as they were, and with the node at
index `master` of "dma-masters" as its target, `master` being 0 when
`req_idx < dmac_requests` and 1 otherwise; cell 4 is the line of the mapping
returned and cell 5 decides the value of the hardware write. -/
theorem route_allocate_rewrites_request (env : mux_env) (s : mux_state)
    (dma_spec : of_phandle_args) (r : alloc_result) (m : rzn1_dmamux_map)
    (h : rzn1_dmamux_route_allocate env s dma_spec = some r) (hret : r.ret = .map m) :
    dma_spec.args_count = 6 ∧
    r.dma_spec.args_count = 4 ∧
    r.dma_spec.args = dma_spec.args ∧
    (∀ i, i < 4 → r.dma_spec.arg i = dma_spec.arg i) ∧
    r.dma_spec.np
      = env.dma_masters (if dma_spec.arg 4 < s.dmamux.dmac_requests then 0 else 1) ∧
    r.dma_spec.np ≠ none ∧
    m.req_idx = dma_spec.arg 4 ∧
    r.st.calls = s.calls ++
      [.of_parse_phandle (if dma_spec.arg 4 < s.dmamux.dmac_requests then 0 else 1),
       .r9a06g032_sysctrl_set_dmamux (u32 (BIT (dma_spec.arg 4)))
         (if dma_spec.arg 5 ≠ 0 then u32 (BIT (dma_spec.arg 4)) else 0)] := by
  obtain ⟨hk, hcount, hchan, hreq, hmod, ⟨node, hnp⟩, hhw⟩ :=
    route_allocate_success env s dma_spec r m h hret
  have h2 := route_allocate_checked env s dma_spec node hk hcount hchan hreq hmod hnp
  simp only [hhw, ne_eq, not_true_eq_false, if_false] at h2
  rw [h2] at h
  cases h
  simp only [alloc_ret.map.injEq] at hret
  refine ⟨hcount, rfl, rfl, fun _ _ => rfl, hnp.symm, by simp, ?_, rfl⟩
  rw [← hret]

/-- C20 on the request of the spec's example. -/
theorem route_allocate_rewrites_request_witness :
    (request 3 11 1).args_count = 6 ∧
    alloc_example.dma_spec.args_count = 4 ∧
    alloc_example.dma_spec.args = (request 3 11 1).args ∧
    (∀ i, i < 4 → alloc_example.dma_spec.arg i = (request 3 11 1).arg i) ∧
    alloc_example.dma_spec.np
      = env_master1.dma_masters
          (if (request 3 11 1).arg 4 < (dev_8_64 0).dmamux.dmac_requests then 0 else 1) ∧
    alloc_example.dma_spec.np ≠ none ∧
    ({ req_idx := 11 } : rzn1_dmamux_map).req_idx = (request 3 11 1).arg 4 ∧
    alloc_example.st.calls = (dev_8_64 0).calls ++
      [.of_parse_phandle
         (if (request 3 11 1).arg 4 < (dev_8_64 0).dmamux.dmac_requests then 0 else 1),
       .r9a06g032_sysctrl_set_dmamux (u32 (BIT ((request 3 11 1).arg 4)))
         (if (request 3 11 1).arg 5 ≠ 0 then u32 (BIT ((request 3 11 1).arg 4)) else 0)] :=
  route_allocate_rewrites_request env_master1 (dev_8_64 0) (request 3 11 1) alloc_example
    { req_idx := 11 } (by decide) rfl

/-! ## Further properties of the alias formatter -/

theorem of_modalias_eq_foldl (np : device_node) (str : Option (List Char)) (len : Int) :
    of_modalias np str len
      = np.compatible.foldl of_modalias_compat (of_modalias_start np str len) := rfl

theorem of_modalias_compat_skipped_mono (st : modalias_state) (c x : List Char)
    (h : x ∈ st.skipped) : x ∈ (of_modalias_compat st c).skipped := by
  unfold of_modalias_compat
  simp only
  split
  · exact List.mem_append_left _ h
  · exact h

theorem foldl_compat_skipped_mono (cs : List (List Char)) (st : modalias_state) (x : List Char)
    (h : x ∈ st.skipped) : x ∈ (cs.foldl of_modalias_compat st).skipped := by
  induction cs generalizing st with
  | nil => exact h
  | cons c cs ih => exact ih _ (of_modalias_compat_skipped_mono st c x h)

/-- A compatible string that does not fit the space left at its turn: the pass
over it changes nothing but `tsize` and the record of skipped strings, and the
loop goes on with the strings after it. -/
theorem of_modalias_skip_step (np : device_node) (str : Option (List Char)) (len : Int)
    (before : List (List Char)) (s : List Char) (after : List (List Char))
    (hsplit : np.compatible = before ++ s :: after)
    (hsmall : (before.foldl of_modalias_compat (of_modalias_start np str len)).len
      < (s.length : Int) + 1) :
    (of_modalias_compat (before.foldl of_modalias_compat (of_modalias_start np str len)) s).mem
      = (before.foldl of_modalias_compat (of_modalias_start np str len)).mem ∧
    (of_modalias_compat (before.foldl of_modalias_compat (of_modalias_start np str len)) s).str
      = (before.foldl of_modalias_compat (of_modalias_start np str len)).str ∧
    (of_modalias_compat (before.foldl of_modalias_compat (of_modalias_start np str len)) s).len
      = (before.foldl of_modalias_compat (of_modalias_start np str len)).len ∧
    (of_modalias_compat (before.foldl of_modalias_compat (of_modalias_start np str len)) s).tsize
      = (before.foldl of_modalias_compat (of_modalias_start np str len)).tsize
        + ((s.length : Int) + 1) ∧
    of_modalias np str len
      = after.foldl of_modalias_compat
          (of_modalias_compat
            (before.foldl of_modalias_compat (of_modalias_start np str len)) s) ∧
    s ∈ (of_modalias np str len).skipped ∧
    (of_modalias np str len).tsize = alias_size np := by
  have hstep := of_modalias_compat_skip _ s hsmall
  have hrun : of_modalias np str len
      = after.foldl of_modalias_compat
          (of_modalias_compat
            (before.foldl of_modalias_compat (of_modalias_start np str len)) s) := by
    rw [of_modalias_eq_foldl, hsplit, List.foldl_append, List.foldl_cons]
  refine ⟨?_, ?_, ?_, ?_, hrun, ?_, of_modalias_tsize np str len⟩
  · rw [hstep]
  · rw [hstep]
  · rw [hstep]
  · rw [hstep]
  · rw [hrun]
    apply foldl_compat_skipped_mono
    rw [hstep]
    exact List.mem_append_right _ (List.mem_singleton_self s)

theorem store_all_stores (cs : List Char) (m : cbuf) (off : Nat) :
    (m.store_all off cs).stores = m.stores ++ List.range' off cs.length := by
  induction cs generalizing m off with
  | nil => simp [cbuf.store_all]
  | cons x cs ih =>
    simp only [cbuf.store_all, ih, cbuf.store, List.length_cons, List.range'_succ,
      List.append_assoc, List.singleton_append]

theorem store_all_length (cs : List Char) (m : cbuf) (off : Nat) :
    (m.store_all off cs).bytes.length = m.bytes.length := by
  induction cs generalizing m off with
  | nil => rfl
  | cons x cs ih => simp only [cbuf.store_all, ih, cbuf.store, List.length_set]

/-- After the stores of a text and its terminator, the terminator sits at the end
of the text, unless that offset is past the memory. -/
theorem store_all_terminator (cs : List Char) (m : cbuf) (off : Nat) :
    (m.store_all off (cs ++ [NUL])).bytes[off + cs.length]? = some NUL ∨
      m.bytes.length ≤ off + cs.length := by
  induction cs generalizing m off with
  | nil =>
    by_cases h : off < m.bytes.length
    · left
      simp only [List.nil_append, cbuf.store_all, cbuf.store, List.length_nil, Nat.add_zero]
      exact List.getElem?_set_self h
    · right
      simp only [List.length_nil, Nat.add_zero]
      omega
  | cons x cs ih =>
    have := ih (m.store off x) (off + 1)
    simp only [cbuf.store, List.length_set] at this
    simp only [List.cons_append, cbuf.store_all, List.length_cons, cbuf.store]
    have e : off + (cs.length + 1) = off + 1 + cs.length := by omega
    rw [e]
    exact this

/-- Where `strchr` finds a character other than the terminator, it is at or
after the start of the scan and before any terminator that follows the start. -/
theorem strchr_scan_bound (l : List Char) (s p q : Nat) (ch : Char) (hch : ch ≠ NUL)
    (h : strchr_scan l s ch = some p) (hsq : s ≤ q)
    (hq : l[q - s]? = some NUL ∨ l.length ≤ q - s) : s ≤ p ∧ p < q ∧ p < s + l.length := by
  induction l generalizing s with
  | nil => simp [strchr_scan] at h
  | cons b bs ih =>
    have hne : q ≠ s ∨ b ≠ NUL → s < q := by
      intro hor
      rcases hor with h1 | h1
      · omega
      · by_contra hle
        have hqs : q = s := by omega
        subst hqs
        simp only [Nat.sub_self, List.getElem?_cons_zero, Option.some.injEq, List.length_cons,
          Nat.le_zero_eq, Nat.add_one_ne_zero, or_false] at hq
        exact h1 hq
    simp only [strchr_scan] at h
    split at h
    · rename_i hb
      simp only [Option.some.injEq] at h
      subst h
      have : s < q := hne (Or.inr (by rw [hb]; exact hch))
      simp only [List.length_cons]
      omega
    · split at h
      · simp at h
      · rename_i hb1 hb2
        have hlt : s < q := hne (Or.inr hb2)
        have hq2 : bs[q - (s + 1)]? = some NUL ∨ bs.length ≤ q - (s + 1) := by
          have e : q - s = (q - (s + 1)) + 1 := by omega
          rw [e] at hq
          simpa using hq
        obtain ⟨h1, h2, h3⟩ := ih (s + 1) h (by omega) hq2
        simp only [List.length_cons]
        omega

theorem strchr_bound (bytes : List Char) (s p q : Nat) (ch : Char) (hch : ch ≠ NUL)
    (h : strchr bytes s ch = some p) (hsq : s ≤ q)
    (hq : bytes[q]? = some NUL ∨ bytes.length ≤ q) : s ≤ p ∧ p < q ∧ p < bytes.length := by
  unfold strchr at h
  have hq2 : (bytes.drop s)[q - s]? = some NUL ∨ (bytes.drop s).length ≤ q - s := by
    rw [List.getElem?_drop, List.length_drop]
    have e : s + (q - s) = q := by omega
    rw [e]
    rcases hq with h1 | h1
    · exact Or.inl h1
    · exact Or.inr (by omega)
  obtain ⟨h1, h2, h3⟩ := strchr_scan_bound _ s p q ch hch h hsq hq2
  rw [List.length_drop] at h3
  refine ⟨h1, h2, ?_⟩
  rcases hq with h4 | h4
  · have : q < bytes.length := by
      by_contra hge
      rw [List.getElem?_eq_none (by omega)] at h4
      cases h4
    omega
  · omega

/-- Every store of the substitution loop falls between the start of the segment
and its terminator. -/
theorem replace_spaces_stores (fuel : Nat) :
    ∀ (m : cbuf) (s q : Nat), s ≤ q → (m.bytes[q]? = some NUL ∨ m.bytes.length ≤ q) →
      ∀ o ∈ (replace_spaces fuel m (some s)).stores, o ∈ m.stores ∨ (s ≤ o ∧ o < q) := by
  induction fuel with
  | zero =>
    intro m s q _ _ o ho
    exact Or.inl ho
  | succ fuel ih =>
    intro m s q hsq hq o ho
    simp only [replace_spaces] at ho
    cases hs : strchr m.bytes s ' ' with
    | none =>
      rw [hs] at ho
      simp only at ho
      cases fuel <;> exact Or.inl (by simpa [replace_spaces] using ho)
    | some p =>
      rw [hs] at ho
      simp only at ho
      obtain ⟨h1, h2, _⟩ := strchr_bound m.bytes s p q ' ' (by decide) hs hsq hq
      have hq2 : (m.store p '_').bytes[q]? = some NUL ∨ (m.store p '_').bytes.length ≤ q := by
        simp only [cbuf.store, List.length_set]
        rcases hq with h3 | h3
        · left
          rw [List.getElem?_set_ne (by omega)]
          exact h3
        · exact Or.inr h3
      rcases ih (m.store p '_') (p + 1) q (by omega) hq2 o ho with h4 | h4
      · simp only [cbuf.store, List.mem_append, List.mem_singleton] at h4
        rcases h4 with h5 | h5
        · exact Or.inl h5
        · exact Or.inr ⟨by omega, by omega⟩
      · exact Or.inr ⟨by omega, h4.2⟩

/-- One pass of the loop stores only inside the space that is left, and keeps the
end of that space where it was. -/
theorem of_modalias_compat_stores (st : modalias_state) (c : List Char) :
    (∀ o ∈ (of_modalias_compat st c).mem.stores,
      o ∈ st.mem.stores ∨ (st.str ≤ o ∧ (o : Int) < st.str + st.len)) ∧
    ((of_modalias_compat st c).str : Int) + (of_modalias_compat st c).len
      = (st.str : Int) + st.len := by
  by_cases hskip : st.len < (c.length : Int) + 1
  · rw [of_modalias_compat_skip st c hskip]
    exact ⟨fun o ho => Or.inl ho, rfl⟩
  · have hn : (st.len.toNat : Int) = st.len := Int.toNat_of_nonneg (by omega)
    have hn0 : st.len.toNat ≠ 0 := by omega
    have hcond : ¬ ((c.length : Int) + 1 > st.len) := by omega
    unfold of_modalias_compat
    simp only [hcond, if_false, snprintf, hn0]
    refine ⟨?_, ?_⟩
    · intro o ho
      have hq := store_all_terminator (('C' :: c).take (st.len.toNat - 1)) st.mem st.str
      rw [← store_all_length (('C' :: c).take (st.len.toNat - 1) ++ [NUL]) st.mem st.str] at hq
      have hk : (('C' :: c).take (st.len.toNat - 1)).length ≤ st.len.toNat - 1 :=
        List.length_take_le _ _
      rcases replace_spaces_stores _ _ st.str
          (st.str + (('C' :: c).take (st.len.toNat - 1)).length) (by omega) hq o ho
        with h1 | h1
      · rw [store_all_stores, List.mem_append, List.mem_range'_1] at h1
        rcases h1 with h2 | h2
        · exact Or.inl h2
        · simp only [List.length_append, List.length_cons, List.length_nil] at h2
          exact Or.inr ⟨h2.1, by omega⟩
      · exact Or.inr ⟨h1.1, by omega⟩
    · simp only [List.length_cons]
      push_cast
      omega

/-- The loop over the compatible strings never stores at or past the end of the
space it was given. -/
theorem foldl_compat_stores (cs : List (List Char)) :
    ∀ (st : modalias_state) (L : Int), (st.str : Int) + st.len = L →
      (∀ o ∈ st.mem.stores, (o : Int) < L) →
      ∀ o ∈ (cs.foldl of_modalias_compat st).mem.stores, (o : Int) < L := by
  induction cs with
  | nil => intro st L _ h; exact h
  | cons c cs ih =>
    intro st L hL hst
    rw [List.foldl_cons]
    obtain ⟨h1, h2⟩ := of_modalias_compat_stores st c
    apply ih (of_modalias_compat st c) L (by rw [h2, hL])
    intro o ho
    rcases h1 o ho with h3 | h3
    · exact hst o h3
    · omega

/-- Every store of `of_modalias` into a non-null buffer is at an offset below
`len`. -/
theorem of_modalias_stores_lt (np : device_node) (buf : List Char) (len : Int)
    (hlen : 0 ≤ len) : ∀ o ∈ (of_modalias np (some buf) len).mem.stores, (o : Int) < len := by
  rw [of_modalias_eq_foldl]
  apply foldl_compat_stores
  · simp only [of_modalias_start, snprintf, Option.isSome_some, if_true]
    omega
  · intro o ho
    simp only [of_modalias_start, snprintf] at ho
    split at ho
    · simp at ho
    · rename_i hn0
      rw [store_all_stores] at ho
      simp only [List.nil_append, List.mem_range'_1, List.length_append, List.length_cons,
        List.length_nil] at ho
      have hk : ((fmt_name_type np).take (len.toNat - 1)).length ≤ len.toNat - 1 :=
        List.length_take_le _ _
      have hn : (len.toNat : Int) = len := Int.toNat_of_nonneg hlen
      omega

theorem untouched_store (b0 : List Char) (m : cbuf) (off : Nat) (x : Char)
    (h : untouched b0 m) : untouched b0 (m.store off x) := by
  intro i hi
  simp only [cbuf.store, List.mem_append, List.mem_singleton, not_or] at hi
  simp only [cbuf.store]
  rw [List.getElem?_set_ne (Ne.symm hi.2)]
  exact h i hi.1

theorem untouched_store_all (b0 : List Char) (cs : List Char) (m : cbuf) (off : Nat)
    (h : untouched b0 m) : untouched b0 (m.store_all off cs) := by
  induction cs generalizing m off with
  | nil => exact h
  | cons x cs ih => exact ih _ _ (untouched_store b0 m off x h)

theorem untouched_replace_spaces (b0 : List Char) (fuel : Nat) (m : cbuf) (s : Option Nat)
    (h : untouched b0 m) : untouched b0 (replace_spaces fuel m s) := by
  induction fuel generalizing m s with
  | zero => exact h
  | succ fuel ih =>
    cases s with
    | none => exact h
    | some s =>
      simp only [replace_spaces]
      split
      · exact ih _ _ h
      · exact ih _ _ (untouched_store b0 m _ _ h)

theorem untouched_compat (b0 : List Char) (st : modalias_state) (c : List Char)
    (h : untouched b0 st.mem) : untouched b0 (of_modalias_compat st c).mem := by
  unfold of_modalias_compat
  simp only [snprintf]
  split
  · exact h
  · apply untouched_replace_spaces
    split
    · exact h
    · exact untouched_store_all b0 _ _ _ h

theorem untouched_foldl_compat (b0 : List Char) (cs : List (List Char)) (st : modalias_state)
    (h : untouched b0 st.mem) : untouched b0 (cs.foldl of_modalias_compat st).mem := by
  induction cs generalizing st with
  | nil => exact h
  | cons c cs ih => exact ih _ (untouched_compat b0 st c h)

theorem untouched_of_modalias (np : device_node) (buf : List Char) (len : Int) :
    untouched buf (of_modalias np (some buf) len).mem := by
  rw [of_modalias_eq_foldl]
  apply untouched_foldl_compat
  simp only [of_modalias_start, snprintf, Option.getD_some]
  split
  · intro i _; rfl
  · apply untouched_store_all
    intro i _; rfl

/-- C17: for every node, every non-null buffer and every `len ≥ 0`, each store
`of_modalias` makes — formatted characters, terminators and underscores alike —
is at an offset below `len`; the record of stores is complete, so every byte of
the buffer at an offset `≥ len` is as it was before the call. -/
theorem of_modalias_bounded_write (np : device_node) (buf : List Char) (len : Int)
    (hlen : 0 ≤ len) :
    (∀ o ∈ (of_modalias np (some buf) len).mem.stores, (o : Int) < len) ∧
    (∀ i : Nat, len ≤ (i : Int) → (of_modalias np (some buf) len).mem.bytes[i]? = buf[i]?) ∧
    (of_modalias np (some buf) len).mem.bytes.length = buf.length := by
  have h1 := of_modalias_stores_lt np buf len hlen
  refine ⟨h1, ?_, ?_⟩
  · intro i hi
    apply untouched_of_modalias np buf len i
    intro hmem
    have := h1 i hmem
    omega
  · rw [of_modalias_eq_foldl]
    have hfold : ∀ (cs : List (List Char)) (st : modalias_state),
        (cs.foldl of_modalias_compat st).mem.bytes.length = st.mem.bytes.length := by
      intro cs
      induction cs with
      | nil => intro st; rfl
      | cons c cs ih =>
        intro st
        rw [List.foldl_cons, ih]
        unfold of_modalias_compat
        simp only [snprintf]
        split
        · rfl
        · have hrep : ∀ (fuel : Nat) (m : cbuf) (s : Option Nat),
              (replace_spaces fuel m s).bytes.length = m.bytes.length := by
            intro fuel
            induction fuel with
            | zero => intro m s; rfl
            | succ fuel ihf =>
              intro m s
              cases s with
              | none => rfl
              | some s =>
                simp only [replace_spaces]
                split
                · exact ihf _ _
                · rw [ihf]; simp [cbuf.store]
          rw [hrep]
          split
          · rfl
          · exact store_all_length _ _ _
    rw [hfold]
    simp only [of_modalias_start, snprintf, Option.getD_some]
    split
    · rfl
    · exact store_all_length _ _ _

/-- C17 on the node of the spec's example with a buffer of 64 bytes and
`len = 30`, which leaves room for the first compatible string only. -/
theorem of_modalias_bounded_write_witness :
    (∀ o ∈ (of_modalias node_uart (some (List.replicate 64 'x')) 30).mem.stores,
      (o : Int) < 30) ∧
    (∀ i : Nat, (30 : Int) ≤ (i : Int) →
      (of_modalias node_uart (some (List.replicate 64 'x')) 30).mem.bytes[i]?
        = (List.replicate 64 'x')[i]?) ∧
    (of_modalias node_uart (some (List.replicate 64 'x')) 30).mem.bytes.length
      = (List.replicate 64 'x').length :=
  of_modalias_bounded_write node_uart (List.replicate 64 'x') 30 (by decide)

/-- C16: for every node and every `len ≥ 0`, a compatible string `s` for which
the space left at its turn is too small (`length s + 1` exceeds it) adds nothing
to the written output — the memory and the record of stores, the write position
and the space left are the same after its pass as before — yet `length s + 1` is
added to the total, which comes out as the full size; and the loop goes on with
the strings after it. -/
theorem of_modalias_skips_but_counts (np : device_node) (str : Option (List Char)) (len : Int)
    (before : List (List Char)) (s : List Char) (after : List (List Char))
    (_hlen : 0 ≤ len)
    (hsplit : np.compatible = before ++ s :: after)
    (hsmall : (before.foldl of_modalias_compat (of_modalias_start np str len)).len
      < (s.length : Int) + 1) :
    (of_modalias_compat (before.foldl of_modalias_compat (of_modalias_start np str len)) s).mem
      = (before.foldl of_modalias_compat (of_modalias_start np str len)).mem ∧
    (of_modalias_compat (before.foldl of_modalias_compat (of_modalias_start np str len)) s).str
      = (before.foldl of_modalias_compat (of_modalias_start np str len)).str ∧
    (of_modalias_compat (before.foldl of_modalias_compat (of_modalias_start np str len)) s).len
      = (before.foldl of_modalias_compat (of_modalias_start np str len)).len ∧
    (of_modalias_compat (before.foldl of_modalias_compat (of_modalias_start np str len)) s).tsize
      = (before.foldl of_modalias_compat (of_modalias_start np str len)).tsize
        + ((s.length : Int) + 1) ∧
    of_modalias np str len
      = after.foldl of_modalias_compat
          (of_modalias_compat
            (before.foldl of_modalias_compat (of_modalias_start np str len)) s) ∧
    s ∈ (of_modalias np str len).skipped ∧
    (of_modalias np str len).tsize = alias_size np :=
  of_modalias_skip_step np str len before s after hsplit hsmall

/-- C16 on a node with the compatible strings `vendor,long` and `ab` and
`len = 10`: the first string is passed over and counted, the second one is
written: the buffer holds `of:NnTCab` and the size returned is 21. -/
theorem of_modalias_skips_but_counts_witness :
    ("vendor,long".toList ∈ (of_modalias node_two (some (List.replicate 10 'x')) 10).skipped ∧
      (of_modalias node_two (some (List.replicate 10 'x')) 10).tsize = alias_size node_two) ∧
    cstring (of_modalias node_two (some (List.replicate 10 'x')) 10).mem.bytes
      = "of:NnTCab".toList ∧
    alias_size node_two = 21 :=
  ⟨(of_modalias_skips_but_counts node_two (some (List.replicate 10 'x')) 10 []
      "vendor,long".toList ["ab".toList] (by decide) rfl (by decide)).2.2.2.2.2,
   by decide, by decide⟩

/-- C18: called with a buffer of exactly `S` bytes, `S` being the size it
returns, `of_modalias` passes over no compatible string but cuts the last element
by one character: the buffer holds the first `S - 1` characters of the alias and
a terminator, which is not the complete alias.  With `len ≥ S + 1` the complete
alias is there; with `len ≤ S` no store reaches the offset `S` at which the
complete alias would end. -/
theorem of_modalias_exact_size_cuts (np : device_node) (buf : List Char)
    (hwf : np.wf) (hbuf : alias_size np ≤ buf.length) :
    0 < alias_size np ∧
    (of_modalias np (some buf) (alias_size np)).skipped = [] ∧
    (of_modalias np (some buf) (alias_size np)).mem.bytes
      = (alias_text np).take (alias_size np - 1) ++ NUL :: buf.drop (alias_size np) ∧
    cstring (of_modalias np (some buf) (alias_size np)).mem.bytes
      = (alias_text np).take (alias_size np - 1) ∧
    (cstring (of_modalias np (some buf) (alias_size np)).mem.bytes).length
      = alias_size np - 1 ∧
    cstring (of_modalias np (some buf) (alias_size np)).mem.bytes ≠ alias_text np ∧
    (of_modalias np (some buf) (alias_size np)).tsize = alias_size np ∧
    (∀ (len : Nat) (b : List Char), alias_size np + 1 ≤ len → len ≤ b.length →
      cstring (of_modalias np (some b) len).mem.bytes = alias_text np) ∧
    (∀ (len : Nat) (b : List Char), len ≤ alias_size np →
      alias_size np ∉ (of_modalias np (some b) len).mem.stores) := by
  have hpos : 0 < alias_size np := by
    have := fmt_name_type_length np
    unfold alias_size
    omega
  obtain ⟨h1, h2⟩ := of_modalias_fits np buf (alias_size np) (Nat.le_refl _) hbuf hwf.2.2
  have hmin : min (alias_size np) (alias_size np - 1) + 1 = alias_size np := by omega
  rw [hmin] at h1
  have hnul : NUL ∉ (alias_text np).take (alias_size np - 1) :=
    fun h => alias_text_no_NUL np hwf (List.mem_of_mem_take h)
  have hc : cstring (of_modalias np (some buf) (alias_size np)).mem.bytes
      = (alias_text np).take (alias_size np - 1) := by
    rw [h1, cstring_terminated _ _ hnul]
  have hl : (cstring (of_modalias np (some buf) (alias_size np)).mem.bytes).length
      = alias_size np - 1 := by
    rw [hc, List.length_take, alias_text_length]
    omega
  refine ⟨hpos, h2, h1, hc, hl, ?_, of_modalias_tsize _ _ _, ?_, ?_⟩
  · intro heq
    rw [heq, alias_text_length] at hl
    omega
  · intro len b hlen hb
    exact (of_modalias_roomy np b len hwf hlen hb).2
  · intro len b hlen hmem
    have := of_modalias_stores_lt np b len (by omega) _ hmem
    omega

/-- C18 on the node of the spec's example, whose size is 42, with a buffer of 42
bytes: 41 characters and a terminator. -/
theorem of_modalias_exact_size_cuts_witness :
    (cstring (of_modalias node_uart (some (List.replicate 42 'x'))
        (alias_size node_uart)).mem.bytes
      = (alias_text node_uart).take (alias_size node_uart - 1)) ∧
    cstring (of_modalias node_uart (some (List.replicate 42 'x')) 42).mem.bytes
      = "of:Nuart@1000TCvendor,uart-aCvendor,uart_".toList :=
  ⟨(of_modalias_exact_size_cuts node_uart (List.replicate 42 'x') node_uart_wf
      (by decide)).2.2.2.1, by decide⟩

/-! ## Properties of the callers of `of_modalias` -/

theorem set_terminated (a rest : List Char) (x y : Char) :
    (a ++ x :: rest).set a.length y = a ++ y :: rest := by
  rw [List.set_append_right _ _ (Nat.le_refl _)]
  simp

theorem set_two_after (a rest : List Char) (x y u v : Char) (S : Nat) (hS : S = a.length) :
    ((a ++ x :: y :: rest).set S u).set (S + 1) v = a ++ u :: v :: rest := by
  subst hS
  rw [set_terminated]
  have e : a ++ u :: y :: rest = (a ++ [u]) ++ y :: rest := by simp
  have e2 : a.length + 1 = (a ++ [u]).length := by simp
  rw [e, e2, set_terminated]
  simp

/-- With at least three bytes more than the alias size, `of_printable_modalias`
returns `S + 1` and leaves the complete alias, a line feed and a terminator. -/
theorem of_printable_modalias_roomy (np : device_node) (buf : List Char) (len : Nat)
    (hwf : np.wf) (hlen : alias_size np + 3 ≤ len) (hbuf : len ≤ buf.length) :
    (of_printable_modalias (some np) (some buf) len).1 = (alias_size np : Int) + 1 ∧
    (of_printable_modalias (some np) (some buf) len).2.bytes
      = alias_text np ++ LF :: NUL :: buf.drop (alias_size np + 2) := by
  have e : ((len : Nat) : Int) - 2 = ((len - 2 : Nat) : Int) := by omega
  obtain ⟨h1, _⟩ := of_modalias_roomy np buf (len - 2) hwf (by omega) (by omega)
  have ht := of_modalias_tsize np (some buf) ((len - 2 : Nat) : Int)
  have hc1 : ¬ ((alias_size np : Int) < 0) := by omega
  have hc2 : ¬ ((alias_size np : Int) > ((len - 2 : Nat) : Int)) := by omega
  have hlt : alias_size np + 1 < buf.length := by omega
  rw [List.drop_eq_getElem_cons hlt] at h1
  unfold of_printable_modalias
  simp only [e, ht, hc1, hc2, if_false, Int.toNat_ofNat, cbuf.store, h1]
  exact ⟨trivial, set_two_after _ _ _ _ _ _ _ (alias_text_length np).symm⟩

/-- With exactly two bytes more than the alias size, `of_printable_modalias`
still returns `S + 1`, but the alias it leaves is cut by one character and ends
at a terminator that comes before the line feed. -/
theorem of_printable_modalias_tight (np : device_node) (buf : List Char)
    (hwf : np.wf) (hbuf : alias_size np + 2 ≤ buf.length) :
    (of_printable_modalias (some np) (some buf) ((alias_size np + 2 : Nat) : Int)).1
      = (alias_size np : Int) + 1 ∧
    (of_printable_modalias (some np) (some buf) ((alias_size np + 2 : Nat) : Int)).2.bytes
      = (alias_text np).take (alias_size np - 1)
        ++ NUL :: LF :: NUL :: buf.drop (alias_size np + 2) ∧
    cstring (of_printable_modalias (some np) (some buf)
        ((alias_size np + 2 : Nat) : Int)).2.bytes
      = (alias_text np).take (alias_size np - 1) := by
  have e : ((alias_size np + 2 : Nat) : Int) - 2 = ((alias_size np : Nat) : Int) := by omega
  obtain ⟨h1, _⟩ := of_modalias_fits np buf (alias_size np) (Nat.le_refl _) (by omega) hwf.2.2
  have hpos : 0 < alias_size np := by
    have := fmt_name_type_length np
    unfold alias_size
    omega
  have hmin : min (alias_size np) (alias_size np - 1) + 1 = alias_size np := by omega
  rw [hmin] at h1
  have ht := of_modalias_tsize np (some buf) ((alias_size np : Nat) : Int)
  have hc1 : ¬ ((alias_size np : Int) < 0) := by omega
  have hc2 : ¬ ((alias_size np : Int) > ((alias_size np : Nat) : Int)) := by omega
  have hlt : alias_size np + 1 < buf.length := by omega
  have hlt0 : alias_size np < buf.length := by omega
  rw [List.drop_eq_getElem_cons hlt0, List.drop_eq_getElem_cons hlt] at h1
  have hbytes : (of_printable_modalias (some np) (some buf)
      ((alias_size np + 2 : Nat) : Int)).2.bytes
      = (alias_text np).take (alias_size np - 1)
        ++ NUL :: LF :: NUL :: buf.drop (alias_size np + 2) := by
    unfold of_printable_modalias
    simp only [e, ht, hc1, hc2, if_false, Int.toNat_ofNat, cbuf.store, h1]
    have h2 := set_two_after ((alias_text np).take (alias_size np - 1) ++ [NUL])
      (buf.drop (alias_size np + 1 + 1)) buf[alias_size np] buf[alias_size np + 1] LF NUL
      (alias_size np)
      (by simp only [List.length_append, List.length_take, alias_text_length,
            List.length_cons, List.length_nil]; omega)
    simpa using h2
  refine ⟨?_, hbytes, ?_⟩
  · unfold of_printable_modalias
    simp only [e, ht, hc1, hc2, if_false]
  · rw [hbytes, cstring_terminated]
    exact fun h => alias_text_no_NUL np hwf (List.mem_of_mem_take h)

/-- C11, at the boundary `len = S + 2`: for the node of the spec's example
(`S = 42`) and a buffer of 44 bytes, `S` does not exceed `len - 2`, so
`of_printable_modalias` succeeds and returns 43; but the buffer then holds only
the first 41 characters of the alias, a terminator, the line feed and a second
terminator: the last character `b` is missing and the string in the buffer ends
before the line feed. -/
theorem of_printable_modalias_len_44 :
    alias_size node_uart = 42 ∧
    (of_printable_modalias (some node_uart) (some (List.replicate 44 'x')) 44).1 = 43 ∧
    (of_printable_modalias (some node_uart) (some (List.replicate 44 'x')) 44).2.bytes
      = "of:Nuart@1000TCvendor,uart-aCvendor,uart_".toList ++ [NUL, LF, NUL] ∧
    cstring (of_printable_modalias (some node_uart) (some (List.replicate 44 'x')) 44).2.bytes
      = "of:Nuart@1000TCvendor,uart-aCvendor,uart_".toList ∧
    alias_text node_uart = "of:Nuart@1000TCvendor,uart-aCvendor,uart_b".toList := by
  decide

/-- The two refusals of `of_printable_modalias`: a null node gives `-ENODEV`, and
a size above `len - 2` gives `-ENOMEM`. -/
theorem of_printable_modalias_refuses (np : device_node) (str : Option (List Char))
    (len : Int) :
    (of_printable_modalias none str len).1 = -ENODEV ∧
    ((alias_size np : Int) > len - 2 →
      (of_printable_modalias (some np) str len).1 = -ENOMEM) ∧
    ((of_printable_modalias (some np) str len).1 = -ENOMEM →
      (alias_size np : Int) > len - 2) := by
  have ht := of_modalias_tsize np str (len - 2)
  have hc1 : ¬ ((alias_size np : Int) < 0) := by omega
  refine ⟨rfl, ?_, ?_⟩
  · intro h
    unfold of_printable_modalias
    simp only [ht, hc1, h, if_false, if_true]
  · intro h
    by_contra hle
    unfold of_printable_modalias at h
    simp only [ht, hc1, hle, if_false] at h
    unfold ENOMEM at h
    omega

/-- C12: for a null node `of_request_module` returns `-ENODEV` and calls nothing;
for a node whose strings are C strings, when `kmalloc` hands out the `S + 1`
bytes asked for, it allocates exactly `S + 1` bytes, hands to `request_module`
the complete alias (`S` characters, no string passed over or cut) and returns
what `request_module` returns. -/
theorem of_request_module_loads_alias (env : module_env) (np : device_node)
    (str : List Char) (hwf : np.wf)
    (hk : env.kmalloc (alias_size np + 1) = some str)
    (hstr : alias_size np + 1 ≤ str.length) :
    of_request_module env none = (-ENODEV, []) ∧
    of_request_module env (some np)
      = (env.request_module (alias_text np),
         [.kmalloc (alias_size np + 1), .request_module (alias_text np), .kfree]) ∧
    (alias_text np).length = alias_size np ∧
    (of_modalias np (some str) ((alias_size np + 1 : Nat) : Int)).skipped = [] := by
  have ht := of_modalias_tsize np none 0
  have hc1 : ¬ ((alias_size np : Int) < 0) := by omega
  have e2 : (alias_size np : Int) + 1 = ((alias_size np + 1 : Nat) : Int) := by omega
  obtain ⟨h1, _⟩ := of_modalias_roomy np str (alias_size np + 1) hwf (Nat.le_refl _) hstr
  obtain ⟨_, hskip⟩ := of_modalias_fits np str (alias_size np + 1) (by omega) hstr hwf.2.2
  have hset : (of_modalias np (some str) ((alias_size np + 1 : Nat) : Int)).mem.bytes.set
      (alias_size np) NUL = alias_text np ++ NUL :: str.drop (alias_size np + 1) := by
    rw [h1]
    have hl : alias_size np = (alias_text np).length := (alias_text_length np).symm
    conv => lhs; arg 2; rw [hl]
    exact set_terminated _ _ _ _
  have hcs : cstring ((of_modalias np (some str) ((alias_size np + 1 : Nat) : Int)).mem.bytes.set
      (alias_size np) NUL) = alias_text np := by
    rw [hset, cstring_terminated _ _ (alias_text_no_NUL np hwf)]
  refine ⟨rfl, ?_, alias_text_length np, hskip⟩
  unfold of_request_module
  simp only [ht, hc1, if_false, e2, Int.toNat_ofNat, hk, cbuf.store, Nat.add_sub_cancel, hcs]

/-- C12 on the node of the spec's example, with an allocator that hands out
memory filled with `x` and a module loader that returns 7. -/
theorem of_request_module_loads_alias_witness :
    of_request_module
        { kmalloc := fun n => some (List.replicate n 'x'), request_module := fun _ => 7 }
        (some node_uart)
      = (7, [.kmalloc 43,
             .request_module "of:Nuart@1000TCvendor,uart-aCvendor,uart_b".toList, .kfree]) :=
  (of_request_module_loads_alias
    { kmalloc := fun n => some (List.replicate n 'x'), request_module := fun _ => 7 }
    node_uart (List.replicate 43 'x') node_uart_wf (by decide) (by decide)).2.1.trans
    (by decide)

/-! ## Properties of the hotplug environment helpers -/

/-- An entry that fits is appended with its terminator after the bytes in use. -/
theorem add_uevent_var_fits (env : kobj_uevent_env) (entry : List Char)
    (henv : env.buflen ≤ env.buf.length)
    (hfit : env.buflen + entry.length + 1 ≤ env.buf.length) :
    (add_uevent_var env entry).2 = 0 ∧
    (add_uevent_var env entry).1.text = env.text ++ entry ++ [NUL] ∧
    (add_uevent_var env entry).1.buflen = env.buflen + (entry.length + 1) ∧
    (add_uevent_var env entry).1.buf.length = env.buf.length ∧
    (add_uevent_var env entry).1.buf
      = env.text ++ entry ++ NUL :: env.buf.drop (env.buflen + entry.length + 1) := by
  unfold add_uevent_var kobj_uevent_env.text
  simp only [hfit, if_true]
  refine ⟨trivial, ?_, by omega, ?_, trivial⟩
  · have hl : (env.buf.take env.buflen ++ entry ++ [NUL]).length
        = env.buflen + entry.length + 1 := by
      simp only [List.length_append, List.length_take, List.length_cons, List.length_nil]
      omega
    have e : env.buf.take env.buflen ++ entry
        ++ NUL :: env.buf.drop (env.buflen + entry.length + 1)
        = (env.buf.take env.buflen ++ entry ++ [NUL])
          ++ env.buf.drop (env.buflen + entry.length + 1) := by simp
    rw [e, ← hl, List.take_left]
  · simp only [List.length_append, List.length_take, List.length_cons, List.length_drop]
    omega

/-- An entry that does not fit is refused and the environment stays as it was. -/
theorem add_uevent_var_overflow (env : kobj_uevent_env) (entry : List Char)
    (h : env.buf.length < env.buflen + entry.length + 1) :
    add_uevent_var env entry = (env, -ENOMEM) := by
  unfold add_uevent_var
  rw [if_neg (by omega)]

theorem entries_text_cons (e : List Char) (es : List (List Char)) :
    entries_text (e :: es) = e ++ [NUL] ++ entries_text es := by
  simp [entries_text]

/-- Entries that all fit are appended in order. -/
theorem add_entries_fit (es : List (List Char)) :
    ∀ env : kobj_uevent_env, env.buflen ≤ env.buf.length →
      env.buflen + (entries_text es).length ≤ env.buf.length →
      (add_entries env es).text = env.text ++ entries_text es ∧
      (add_entries env es).buflen = env.buflen + (entries_text es).length ∧
      (add_entries env es).buf.length = env.buf.length := by
  induction es with
  | nil =>
    intro env _ _
    simp [add_entries, entries_text]
  | cons e es ih =>
    intro env henv hroom
    rw [entries_text_cons] at hroom ⊢
    simp only [List.length_append, List.length_cons, List.length_nil] at hroom
    obtain ⟨_, h2, h3, h4, _⟩ := add_uevent_var_fits env e henv (by omega)
    obtain ⟨g1, g2, g3⟩ := ih (add_uevent_var env e).1 (by rw [h3, h4]; omega)
      (by rw [h3, h4]; omega)
    have hstep : add_entries env (e :: es) = add_entries (add_uevent_var env e).1 es := rfl
    rw [hstep, g1, g2, g3, h2, h3, h4]
    refine ⟨by simp, ?_, rfl⟩
    simp only [List.length_append, List.length_cons, List.length_nil]
    omega

theorem add_entries_append (env : kobj_uevent_env) (a b : List (List Char)) :
    add_entries env (a ++ b) = add_entries (add_entries env a) b := by
  simp [add_entries, List.foldl_append]

theorem foldl_of_uevent_compat (cs : List (List Char)) :
    ∀ (env : kobj_uevent_env) (k : Nat),
      cs.foldl of_uevent_compat (env, k)
        = (add_entries env ((cs.enumFrom k).map fun ic =>
              "OF_COMPATIBLE_".toList ++ fmt_d ic.1 ++ '=' :: ic.2), k + cs.length) := by
  induction cs with
  | nil => intro env k; rfl
  | cons x cs ih =>
    intro env k
    rw [List.foldl_cons]
    simp only [of_uevent_compat]
    rw [ih]
    simp only [List.enumFrom_cons, List.map_cons, List.length_cons]
    refine Prod.ext rfl ?_
    simp only
    omega

theorem foldl_of_uevent_alias (np : device_node) (l : List alias_prop) :
    ∀ (env : kobj_uevent_env) (k : Nat),
      l.foldl (of_uevent_alias np) (env, k)
        = (add_entries env
            (((l.filter fun app => decide (np.addr = app.np)).enumFrom k).map fun ja =>
              "OF_ALIAS_".toList ++ fmt_d ja.1 ++ '=' :: ja.2.alias_name),
           k + (l.filter fun app => decide (np.addr = app.np)).length) := by
  induction l with
  | nil => intro env k; rfl
  | cons x l ih =>
    intro env k
    rw [List.foldl_cons]
    by_cases hx : np.addr = x.np
    · simp only [of_uevent_alias, hx, if_true]
      rw [ih]
      simp only [List.filter_cons, hx, decide_True, if_true, List.enumFrom_cons, List.map_cons,
        List.length_cons]
      refine Prod.ext rfl ?_
      simp only
      omega
    · simp only [of_uevent_alias, hx, if_false]
      rw [ih]
      simp only [List.filter_cons, hx, decide_False]
      rfl

/-- What `of_uevent` does for a non-null node: it returns 0 and offers the
entries of the spec to `add_uevent_var`, in order. -/
theorem of_uevent_eq_add_entries (aliases_lookup : List alias_prop) (np : device_node)
    (env : kobj_uevent_env) :
    of_uevent aliases_lookup (some np) env
      = (0, add_entries env (uevent_entries aliases_lookup np)) := by
  unfold of_uevent uevent_entries
  simp only [foldl_of_uevent_compat, foldl_of_uevent_alias, add_entries_append, List.enum,
    Nat.zero_add]
  cases np.device_type <;> rfl

/-- Entries that are all too long for the space left are all refused, and the
environment stays as it was. -/
theorem add_entries_all_refused (env : kobj_uevent_env) (es : List (List Char))
    (h : ∀ e ∈ es, env.buf.length < env.buflen + e.length + 1) : add_entries env es = env := by
  induction es with
  | nil => rfl
  | cons e es ih =>
    have h1 : add_entries env (e :: es) = add_entries (add_uevent_var env e).1 es := rfl
    rw [h1, add_uevent_var_overflow _ _ (h e (List.mem_cons_self _ _))]
    exact ih (fun x hx => h x (List.mem_cons_of_mem _ hx))

set_option maxRecDepth 4000

/-- C13: for a non-null node with `N` compatible strings and an environment with
room for all the entries, `of_uevent` returns 0 and appends, in order, `OF_NAME`,
`OF_FULLNAME`, `OF_TYPE` only when the device type is present, one
`OF_COMPATIBLE_<i>=<i-th string>` for each `i = 0..N-1`, `OF_COMPATIBLE_N=N`, and
one `OF_ALIAS_<j>`, `j` counting from 0, for each alias-lookup entry whose target
is the node; each entry is followed by its terminator. -/
theorem of_uevent_appends_entries (aliases_lookup : List alias_prop) (np : device_node)
    (env : kobj_uevent_env)
    (henv : env.buflen ≤ env.buf.length)
    (hroom : env.buflen + (entries_text (uevent_entries aliases_lookup np)).length
      ≤ env.buf.length) :
    (of_uevent aliases_lookup (some np) env).1 = 0 ∧
    (of_uevent aliases_lookup (some np) env).2.text
      = env.text ++ entries_text (uevent_entries aliases_lookup np) ∧
    (of_uevent aliases_lookup (some np) env).2.buflen
      = env.buflen + (entries_text (uevent_entries aliases_lookup np)).length ∧
    uevent_entries aliases_lookup np
      = [ "OF_NAME=".toList ++ np.name, "OF_FULLNAME=".toList ++ np.full_name ]
        ++ (match np.device_type with
            | some type => [ "OF_TYPE=".toList ++ type ]
            | none => [])
        ++ (np.compatible.enum.map fun ic =>
              "OF_COMPATIBLE_".toList ++ fmt_d ic.1 ++ '=' :: ic.2)
        ++ [ "OF_COMPATIBLE_N=".toList ++ fmt_d np.compatible.length ]
        ++ ((aliases_lookup.filter fun app => decide (np.addr = app.np)).enum.map fun ja =>
              "OF_ALIAS_".toList ++ fmt_d ja.1 ++ '=' :: ja.2.alias_name) ∧
    (np.compatible.enum.map fun ic =>
      "OF_COMPATIBLE_".toList ++ fmt_d ic.1 ++ '=' :: ic.2).length = np.compatible.length := by
  rw [of_uevent_eq_add_entries]
  obtain ⟨h1, h2, _⟩ := add_entries_fit _ env henv hroom
  exact ⟨rfl, h1, h2, rfl, by simp⟩

/-- C13 on a node with a device type, two compatible strings and two aliases
among three alias-lookup entries, in an empty buffer of 200 bytes. -/
theorem of_uevent_appends_entries_witness :
    (of_uevent
        [{ np := 4096, alias_name := "serial0".toList }, { np := 5, alias_name := "x".toList },
         { np := 4096, alias_name := "tty1".toList }]
        (some node_serial) (env_empty 200)).2.text
      = entries_text
          [ "OF_NAME=uart@1000".toList, "OF_FULLNAME=/soc/uart@1000".toList,
            "OF_TYPE=serial".toList, "OF_COMPATIBLE_0=vendor,uart-a".toList,
            "OF_COMPATIBLE_1=vendor,uart b".toList, "OF_COMPATIBLE_N=2".toList,
            "OF_ALIAS_0=serial0".toList, "OF_ALIAS_1=tty1".toList ] :=
  (of_uevent_appends_entries
    [{ np := 4096, alias_name := "serial0".toList }, { np := 5, alias_name := "x".toList },
     { np := 4096, alias_name := "tty1".toList }]
    node_serial (env_empty 200) (by decide) (by decide)).2.1.trans (by decide)

/-- C14 does not hold of the code: `of_uevent` returns 0 for every non-null node
and every environment, because it drops what `add_uevent_var` returns.  With 8
bytes left in the buffer, `add_uevent_var` refuses the first entry with
`-ENOMEM`, and so every other one, yet `of_uevent` returns 0 and leaves the
environment as it was. -/
theorem of_uevent_ignores_overflow :
    (∀ (aliases_lookup : List alias_prop) (np : device_node) (env : kobj_uevent_env),
      (of_uevent aliases_lookup (some np) env).1 = 0) ∧
    (add_uevent_var env_nearly_full ("OF_NAME=".toList ++ node_serial.name)).2 = -ENOMEM ∧
    of_uevent [] (some node_serial) env_nearly_full = (0, env_nearly_full) := by
  refine ⟨fun _ _ _ => rfl, ?_, ?_⟩
  · rw [add_uevent_var_overflow _ _
      (by simp only [env_nearly_full, List.length_replicate, node_serial]; decide)]
  · rw [of_uevent_eq_add_entries]
    have h : ∀ e ∈ uevent_entries [] node_serial, 8 ≤ e.length := by decide
    rw [add_entries_all_refused]
    intro e he
    have h8 := h e he
    simp only [env_nearly_full, List.length_replicate]
    omega

theorem text_of_append (a rest : List Char) (n : Nat) (h : n = a.length) :
    kobj_uevent_env.text { buf := a ++ rest, buflen := n } = a := by
  subst h
  exact List.take_left a rest

/-- The outcome of `of_uevent_modalias` when `MODALIAS=` itself fits: refusal when
the alias size is not below the space left after it, and otherwise the complete
alias right after `MODALIAS=`, with its terminator as the last byte in use. -/
theorem of_uevent_modalias_after_key (np : device_node) (env : kobj_uevent_env)
    (hwf : np.wf) (henv : env.buflen ≤ env.buf.length)
    (hkey : env.buflen + 10 ≤ env.buf.length) :
    (env.buf.length ≤ env.buflen + 10 + alias_size np →
      (of_uevent_modalias (some np) env).1 = -ENOMEM) ∧
    (env.buflen + 10 + alias_size np < env.buf.length →
      (of_uevent_modalias (some np) env).1 = 0 ∧
      (of_uevent_modalias (some np) env).2.text
        = env.text ++ "MODALIAS=".toList ++ alias_text np ++ [NUL] ∧
      (of_uevent_modalias (some np) env).2.buflen = env.buflen + 10 + alias_size np ∧
      (of_uevent_modalias (some np) env).2.buf.length = env.buf.length) := by
  have hE : "MODALIAS=".toList.length = 9 := by decide
  obtain ⟨h1, _, h3, h4, h5⟩ := add_uevent_var_fits env "MODALIAS=".toList henv
    (by rw [hE]; omega)
  rw [hE] at h3 h5
  have hroom : ((add_uevent_var env "MODALIAS=".toList).1.buf.length : Int)
      - ((add_uevent_var env "MODALIAS=".toList).1.buflen : Nat)
      = ((env.buf.length - env.buflen - 10 : Nat) : Int) := by
    rw [h3, h4]; omega
  have htl : (env.text ++ "MODALIAS=".toList).length = env.buflen + 9 := by
    simp only [List.length_append, kobj_uevent_env.text, List.length_take, hE]
    omega
  have hmem : (add_uevent_var env "MODALIAS=".toList).1.buf.drop
      ((add_uevent_var env "MODALIAS=".toList).1.buflen - 1)
      = NUL :: env.buf.drop (env.buflen + 9 + 1) := by
    rw [h3, h5]
    have e : env.buflen + (9 + 1) - 1 = (env.text ++ "MODALIAS=".toList).length := by
      rw [htl]; omega
    rw [e, List.drop_left]
  have htake : (add_uevent_var env "MODALIAS=".toList).1.buf.take
      ((add_uevent_var env "MODALIAS=".toList).1.buflen - 1)
      = env.text ++ "MODALIAS=".toList := by
    rw [h3, h5]
    have e : env.buflen + (9 + 1) - 1 = (env.text ++ "MODALIAS=".toList).length := by
      rw [htl]; omega
    rw [e, List.take_left]
  have ht := of_modalias_tsize np (some (NUL :: env.buf.drop (env.buflen + 9 + 1)))
    ((env.buf.length - env.buflen - 10 : Nat) : Int)
  have hne : ¬ ((add_uevent_var env "MODALIAS=".toList).2 ≠ 0) := by rw [h1]; simp
  refine ⟨?_, ?_⟩
  · intro hfull
    have hc : (alias_size np : Int) ≥ ((env.buf.length - env.buflen - 10 : Nat) : Int) := by
      omega
    unfold of_uevent_modalias
    simp only [hne, if_false, hroom, hmem, ht, hc, if_true]
  · intro hfree
    have hc : ¬ ((alias_size np : Int) ≥ ((env.buf.length - env.buflen - 10 : Nat) : Int)) := by
      omega
    obtain ⟨hb, _⟩ := of_modalias_roomy np (NUL :: env.buf.drop (env.buflen + 9 + 1))
      (env.buf.length - env.buflen - 10) hwf (by omega)
      (by simp only [List.length_cons, List.length_drop]; omega)
    have hres : of_uevent_modalias (some np) env
        = (0, { buf := env.text ++ "MODALIAS=".toList
                  ++ (alias_text np
                    ++ NUL :: (NUL :: env.buf.drop (env.buflen + 9 + 1)).drop (alias_size np + 1)),
                buflen := env.buflen + (9 + 1) + alias_size np }) := by
      unfold of_uevent_modalias
      simp only [hne, if_false, hroom, hmem, htake, ht, hc, hb, Int.toNat_ofNat]
      rw [h3]
    rw [hres]
    have e : env.text ++ "MODALIAS=".toList
        ++ (alias_text np
          ++ NUL :: (NUL :: env.buf.drop (env.buflen + 9 + 1)).drop (alias_size np + 1))
        = (env.text ++ "MODALIAS=".toList ++ alias_text np ++ [NUL])
          ++ (NUL :: env.buf.drop (env.buflen + 9 + 1)).drop (alias_size np + 1) := by
      simp
    have hl : (env.text ++ "MODALIAS=".toList ++ alias_text np ++ [NUL]).length
        = env.buflen + (9 + 1) + alias_size np := by
      rw [List.length_append, List.length_append, htl, alias_text_length]
      simp only [List.length_cons, List.length_nil]
      omega
    rw [e]
    refine ⟨rfl, text_of_append _ _ _ hl.symm, ?_, ?_⟩
    · show env.buflen + (9 + 1) + alias_size np = env.buflen + 10 + alias_size np
      omega
    · show ((env.text ++ "MODALIAS=".toList ++ alias_text np ++ [NUL])
          ++ (NUL :: env.buf.drop (env.buflen + 9 + 1)).drop (alias_size np + 1)).length
        = env.buf.length
      rw [List.length_append, hl]
      simp only [List.length_drop, List.length_cons]
      omega

/-- C15: `of_uevent_modalias` never leaves a cut alias on success.  For a null
node it returns `-ENODEV`.  For a node whose strings are C strings it returns
`-ENOMEM` whenever `MODALIAS=`, the complete alias and its terminator would not
fit in the space left; and whenever it returns 0 the bytes in use have grown by
exactly one entry, `MODALIAS=` followed by the complete alias (all `S`
characters) and a terminator, `buflen` having advanced by the length of that
entry with its terminator. -/
theorem of_uevent_modalias_complete_or_refused (np : device_node) (env : kobj_uevent_env)
    (hwf : np.wf) (henv : env.buflen ≤ env.buf.length) :
    (of_uevent_modalias none env).1 = -ENODEV ∧
    (env.buf.length - env.buflen < ("MODALIAS=".toList ++ alias_text np ++ [NUL]).length →
      (of_uevent_modalias (some np) env).1 = -ENOMEM) ∧
    ((of_uevent_modalias (some np) env).1 = 0 →
      (of_uevent_modalias (some np) env).2.text
        = env.text ++ "MODALIAS=".toList ++ alias_text np ++ [NUL] ∧
      (of_uevent_modalias (some np) env).2.buflen
        = env.buflen + ("MODALIAS=".toList ++ alias_text np ++ [NUL]).length ∧
      (alias_text np).length = alias_size np ∧
      (of_uevent_modalias (some np) env).2.buf.length = env.buf.length) ∧
    ((of_uevent_modalias (some np) env).1 = 0 ∨
      (of_uevent_modalias (some np) env).1 = -ENOMEM) := by
  have hE : "MODALIAS=".toList.length = 9 := by decide
  have hlen : ("MODALIAS=".toList ++ alias_text np ++ [NUL]).length = 9 + alias_size np + 1 := by
    simp only [List.length_append, hE, alias_text_length, List.length_cons, List.length_nil]
  rw [hlen]
  by_cases hkey : env.buflen + 10 ≤ env.buf.length
  · obtain ⟨hA, hB⟩ := of_uevent_modalias_after_key np env hwf henv hkey
    by_cases hfree : env.buflen + 10 + alias_size np < env.buf.length
    · obtain ⟨g1, g2, g3, g4⟩ := hB hfree
      refine ⟨rfl, fun h => by omega, fun _ => ⟨g2, by rw [g3]; omega, alias_text_length np, g4⟩,
        Or.inl g1⟩
    · have g := hA (by omega)
      refine ⟨rfl, fun _ => g, fun h0 => ?_, Or.inr g⟩
      rw [g] at h0
      exact absurd h0 (by decide)
  · have hov := add_uevent_var_overflow env "MODALIAS=".toList (by rw [hE]; omega)
    have g : (of_uevent_modalias (some np) env).1 = -ENOMEM := by
      unfold of_uevent_modalias
      simp only [hov]
      rw [if_pos (by decide)]
    refine ⟨rfl, fun _ => g, fun h0 => ?_, Or.inr g⟩
    rw [g] at h0
    exact absurd h0 (by decide)

/-- C15 on the node of the spec's example in an empty buffer of 60 bytes: the
entry takes 52 of them. -/
theorem of_uevent_modalias_complete_or_refused_witness :
    (of_uevent_modalias (some node_uart) (env_empty 60)).1 = 0 ∧
    (of_uevent_modalias (some node_uart) (env_empty 60)).2.text
      = "MODALIAS=of:Nuart@1000TCvendor,uart-aCvendor,uart_b".toList ++ [NUL] :=
  ⟨by decide,
   ((of_uevent_modalias_complete_or_refused node_uart (env_empty 60) node_uart_wf
      (by decide)).2.2.1 (by decide)).1.trans (by decide)⟩
